import Mathlib

/-!
Verification of the reference-graph / path-resolution core of
`collective.zodbdebug` (file `collective/zodbdebug/core.py`, helpers in
`collective/zodbdebug/util.py`).

OIDs are opaque byte strings in the source; we model them as `Nat`.  A
Python `dict` mapping OIDs to sets of OIDs is modelled as an association
list `List (Oid × List Oid)` whose values carry set semantics: elements
are added through `addElem`, which refuses duplicates, and reads go
through `mget` (first matching key; a missing key reads as the empty set,
exactly like `dict.get(oid, frozenset())`).  The set of visited OIDs is a
`Finset Nat`.  Fallible store reads are `Option` / `Except`.
-/

abbrev Oid := Nat

/-- A map from OID to a set of OIDs (`self._reference_map`,
`self._back_reference_map` in `core.py`); values are duplicate-free lists
standing for Python sets. -/
abbrev OidMap := List (Oid × List Oid)

/-- Read a map entry; a missing key reads as the empty set, matching
`self.reference_map.get(oid, self._EMPTY_FROZENSET)`. -/
def mget : OidMap → Oid → List Oid
  | [], _ => []
  | (k, v) :: rest, o => if o = k then v else mget rest o

/-- Keys of a map (`set(self._reference_map)`). -/
def mkeys (m : OidMap) : List Oid := m.map Prod.fst

/-- A Python `set.add(x)` on a list-modelled set: append the element
unless already present. -/
def addElem (v : List Oid) (x : Oid) : List Oid :=
  if x ∈ v then v else v ++ [x]

/-- Model of `m.setdefault(k, set()).add(x)`: insert `x` into the set at
key `k`, creating the entry if absent. -/
def madd : OidMap → Oid → Oid → OidMap
  | [], k, x => [(k, [x])]
  | (k', v) :: rest, k, x =>
    if k = k' then (k', addElem v x) :: rest else (k', v) :: madd rest k x

/-- Model of `for r in refs: back.setdefault(r, set()).add(src)` in
`_build_reference_maps_from_scratch`. -/
def addBackRefs (b : OidMap) (src : Oid) (ts : List Oid) : OidMap :=
  ts.foldl (fun m t => madd m t src) b

/-- Insertion into a list sorted ascending by the `Nat` key `f`; a new
element goes after existing elements with an equal key, so the sort built
from it is stable, like Python's `sorted`. -/
def insertSorted (f : α → Nat) (x : α) : List α → List α
  | [] => [x]
  | y :: ys => if f x < f y then x :: y :: ys else y :: insertSorted f x ys

/-- Stable ascending sort by a `Nat` key, modelling Python's
`sorted(..., key=f)`. -/
def sortByNat (f : α → Nat) (l : List α) : List α :=
  l.foldr (insertSorted f) []

/-- The session data the scorer and path resolver read: the two reference
maps plus the per-OID lookups `get_id` and `get_attr_name` (external
object-inspection capabilities, memoized pure reads in the source). -/
structure Env where
  refMap : OidMap
  backMap : OidMap
  getId : Oid → Option String
  getAttrName : Oid → Oid → Option String

/-- `self.get_references(oid)` (map read with empty default). -/
def Env.refs (e : Env) (o : Oid) : List Oid := mget e.refMap o

/-- `self.get_back_references(oid)` (map read with empty default). -/
def Env.backRefs (e : Env) (o : Oid) : List Oid := mget e.backMap o

/-- Score of an identifier, second rule block of `_get_reference_score`:
`20` for `'ldapauth'`, `60` for `'IIntIds'`, else `10`. -/
def idScore (i : String) : Nat :=
  if i = "ldapauth" then 20 else if i = "IIntIds" then 60 else 10

/-- Python truthiness of the identifier returned by `get_id`
(`if identifier:`): `None` and the empty string are falsy. -/
def truthyId : Option String → Option String
  | some i => if i = "" then none else some i
  | none => none

/-- The depth-independent part of `_get_reference_score(source, target)`
from `core.py`: the bidirectional-reference rule, the identifier rules,
and the attribute-name rules.  `lookaheadResult` is the value of the
missing-or-first-bucket branch, supplied by `refScore` according to the
remaining look-ahead budget.  Rule order and constants follow the source
line by line; Python truthiness of the identifier (`if identifier:`) is
`truthyId`. -/
def refScoreCore (e : Env) (source target : Oid) (lookaheadResult : Nat) : Nat :=
  if source ∈ e.refs target then 90
  else
    match truthyId (e.getId source) with
    | some i => idScore i
    | none =>
      if e.getAttrName target source = some "ids" ∨
         e.getAttrName target source = some "refs" ∨
         e.getAttrName target source = some "_next" then 80
      else if e.getAttrName target source = some "_tree" ∨
         e.getAttrName target source = some "_blob" then 20
      else if e.getAttrName target source = none ∨
         e.getAttrName target source = some "" ∨
         e.getAttrName target source = some "_firstbucket" then lookaheadResult
      else 50

/-- Model of `_get_reference_score(source, target, allowed_look_ahead_depth)`.
The first argument is the remaining look-ahead depth (`3` at every call
site, from the Python argument default).  At exhausted depth the
missing-attribute branch scores `70`; otherwise it looks ahead into the
source's own back-references with source and target swapped and depth
reduced by one, scoring `30` when the best look-ahead score is at most
`50` and `70` otherwise.  The result is a `Nat`, so the claimed lower
bound `0` holds by the type. -/
def refScore (e : Env) : Nat → Oid → Oid → Nat
  | 0, source, target => refScoreCore e source target 70
  | d + 1, source, target =>
    refScoreCore e source target
      (match ((e.backRefs source).map (fun b => refScore e d b source)).min? with
       | some m => if m ≤ 50 then 30 else 70
       | none => 70)

/-- Model of `_get_best_back_reference(target, forbidden)`: the candidates
are the back-references of `target` outside `forbidden`, sorted (stably) by
`_get_reference_score(source=br, target)`, and the first one is returned
(`None` when there is no candidate).  The candidate set is iterated in
its stored order, a deterministic stand-in for Python's set iteration
order. -/
def bestBackReference (e : Env) (target : Oid) (forbidden : List Oid) : Option Oid :=
  (sortByNat (fun br => refScore e 3 br target)
    ((e.backRefs target).filter (fun br => decide (br ∉ forbidden)))).head?

/-- The OID-path cache `self._oid_paths_cache` from `util.cache_get_oid_path`:
an association list from OID to a previously computed path. -/
abbrev PathCache := List (Oid × List Oid)

/-- `cache.get(oid)`. -/
def cacheFind : PathCache → Oid → Option (List Oid)
  | [], _ => none
  | (k, p) :: rest, o => if o = k then some p else cacheFind rest o

/-- `cache.setdefault(k, p)`: keep an existing entry, never overwrite. -/
def cacheSetdefault (c : PathCache) (k : Oid) (p : List Oid) : PathCache :=
  if (cacheFind c k).isSome then c else (k, p) :: c

/-- The insertion loop of `cache_get_oid_path`:
`for i in xrange(len(path)): cache.setdefault(path[i], path[i:])`. -/
def insertSuffixes (c : PathCache) : List Oid → PathCache
  | [] => c
  | x :: rest => insertSuffixes (cacheSetdefault c x (x :: rest)) rest

/-- Model of the decorated `get_oid_path(oid, preceding_path)`:
the `cache_get_oid_path` wrapper from `util.py` around the body from
`core.py`.  A cached path is returned only when it is non-empty
(`if path:`) and disjoint from `preceding_path`; otherwise the wrapped
body runs: extend the preceding path with `oid`, pick the best
back-reference outside it, recurse, and memoize the suffixes of the
resulting path.  The `Nat` argument is recursion fuel (one unit per call
level); `none` means the fuel ran out, which never happens for sufficient
fuel (see the termination theorem). -/
def getOidPath (e : Env) : Nat → Oid → List Oid → PathCache →
    Option (List Oid × PathCache)
  | 0, _, _, _ => none
  | fuel + 1, oid, preceding, cache =>
    let body :=
      let preceding2 := preceding ++ [oid]
      match bestBackReference e oid preceding2 with
      | none => some ([oid], insertSuffixes cache [oid])
      | some bref =>
        match getOidPath e fuel bref preceding2 cache with
        | none => none
        | some (rest, c₁) =>
          some (oid :: rest, insertSuffixes c₁ (oid :: rest))
    match cacheFind cache oid with
    | some p =>
      if p ≠ [] then
        if p.all (fun x => decide (x ∉ preceding)) then some (p, cache)
        else body
      else body
    | none => body

/-- The body of `get_oid_path` alone (the wrapped function plus the
wrapper's suffix memoization, without the cache consultation), as run on a
cache miss or for a representation-form argument.  Definitionally equal to
the `body` of the miss branches of `getOidPath` at fuel `fuel + 1`. -/
def getOidPathBody (e : Env) (fuel : Nat) (oid : Oid) (preceding : List Oid)
    (cache : PathCache) : Option (List Oid × PathCache) :=
  let preceding2 := preceding ++ [oid]
  match bestBackReference e oid preceding2 with
  | none => some ([oid], insertSuffixes cache [oid])
  | some bref =>
    match getOidPath e fuel bref preceding2 cache with
    | none => none
    | some (rest, c₁) => some (oid :: rest, insertSuffixes c₁ (oid :: rest))

/-- Unfolding equation of `getOidPath` at positive fuel, phrased through
`getOidPathBody`. -/
theorem getOidPath_succ (e : Env) (fuel : Nat) (oid : Oid)
    (preceding : List Oid) (cache : PathCache) :
    getOidPath e (fuel + 1) oid preceding cache =
      match cacheFind cache oid with
      | some p =>
        if p ≠ [] then
          if p.all (fun x => decide (x ∉ preceding)) then some (p, cache)
          else getOidPathBody e fuel oid preceding cache
        else getOidPathBody e fuel oid preceding cache
      | none => getOidPathBody e fuel oid preceding cache := rfl

/-- A public-interface argument: either a raw OID or its printable
representation (a string starting with `'0x'` in the source, auto-detected
by `oid_or_repr_to_oid`). -/
inductive OidArg
  | raw (o : Oid)
  | rep (o : Oid)

/-- `oid_or_repr_to_oid`: normalize either form to the raw OID. -/
def oidOrReprToOid : OidArg → Oid
  | .raw o => o
  | .rep o => o

/-- A top-level `get_oid_path(oid_or_repr)` call with the default empty
`preceding_path`.  The cache is keyed by raw OIDs (paths hold raw OIDs),
so a representation-form argument never matches a cache key and always
runs the body, which first normalizes the argument. -/
def getOidPathArg (e : Env) : Nat → OidArg → PathCache →
    Option (List Oid × PathCache)
  | 0, _, _ => none
  | fuel + 1, .raw o, cache => getOidPath e (fuel + 1) o [] cache
  | fuel + 1, .rep o, cache => getOidPathBody e fuel o [] cache

/-- The object-store adapter seen by the walk: the root OID and, per OID,
`set(referencesf(storage.load(oid)[0]))` — `none` models a load/extract
failure (`POSKeyError` and friends). -/
structure Store where
  root : Oid
  load : Oid → Option (List Oid)

/-- Errors of the from-scratch walk: a store read failure at an OID, the
`'OID ... already in reference map!'` guard, or exhausted fuel (an artifact
of the model; the Python loop runs until the work-set empties). -/
inductive WalkErr
  | storeRead (o : Oid)
  | dupKey (o : Oid)
  | outOfFuel
deriving DecidableEq

/-- The three session fields built by the walk. -/
structure WalkState where
  oids : Finset Oid
  refMap : OidMap
  backMap : OidMap

/-- Model of the loop of `_build_reference_maps_from_scratch`: pop an OID
from the work list, skip it if visited, mark it visited, load and extract
its references; an empty reference set is skipped, otherwise it is recorded
in the forward map, its members are enqueued, and the back map gains this
OID under each referenced target.  On a load failure the partially built
state is returned together with the error, modelling the Python exception
propagating while `self._reference_map` etc. keep the partial dicts. -/
def walk (store : Store) : Nat → List Oid → WalkState → WalkState × Option WalkErr
  | 0, _, st => (st, some .outOfFuel)
  | _ + 1, [], st => (st, none)
  | fuel + 1, o :: rest, st =>
    if o ∈ st.oids then walk store fuel rest st
    else
      let st1 : WalkState := { st with oids := insert o st.oids }
      match store.load o with
      | none => (st1, some (.storeRead o))
      | some rl =>
        let refs := rl.dedup
        if refs = [] then walk store fuel rest st1
        else if o ∈ mkeys st1.refMap then (st1, some (.dupKey o))
        else walk store fuel (rest ++ refs)
          { st1 with
            refMap := (o, refs) :: st1.refMap
            backMap := addBackRefs st1.backMap o refs }

/-- One fold step of `_load_reference_cache`: record the edge in the
forward map and its transpose in the backward map. -/
def loadStep (fb : OidMap × OidMap) (ln : Oid × Oid) : OidMap × OidMap :=
  (madd fb.1 ln.1 ln.2, madd fb.2 ln.2 ln.1)

/-- Model of `_load_reference_cache`: fold the `(source, target)` edge
lines of the cache file into the forward and backward maps, then rebuild
the OID set as the union of the two maps' key sets. -/
def loadCache (lines : List (Oid × Oid)) : OidMap × OidMap × Finset Oid :=
  let maps := lines.foldl loadStep ([], [])
  (maps.1, maps.2, (mkeys maps.1).toFinset ∪ (mkeys maps.2).toFinset)

/-- Model of `_store_reference_cache`: one `(source, target)` line per
edge, sources sorted ascending, each source's targets sorted ascending. -/
def storeCache (m : OidMap) : List (Oid × Oid) :=
  (sortByNat Prod.fst m).flatMap
    (fun st => (sortByNat (fun x => x) st.2).map (fun t => (st.1, t)))

/-- The three lazily built fields of `ZODBInfo`: `None` before any build,
then whatever `_build_reference_maps_from_scratch` / `_load_reference_cache`
left in them. -/
structure SessionState where
  oidsF : Option (Finset Oid) := none
  refMapF : Option OidMap := none
  backMapF : Option OidMap := none

/-- Python truthiness of an optional map field: `None` and the empty dict
are both falsy (`if not self._reference_map`). -/
def falsyMap : Option OidMap → Bool
  | none => true
  | some m => m.isEmpty

/-- Python truthiness of the optional OID set field. -/
def falsySet : Option (Finset Oid) → Bool
  | none => true
  | some s => decide (s = ∅)

/-- The `oids` property: raises (`RuntimeError`) when the field is falsy. -/
def oidsAcc (s : SessionState) : Except Unit (Finset Oid) :=
  if falsySet s.oidsF then .error () else .ok (s.oidsF.getD ∅)

/-- The `reference_map` property: raises when the field is falsy. -/
def refMapAcc (s : SessionState) : Except Unit OidMap :=
  if falsyMap s.refMapF then .error () else .ok (s.refMapF.getD [])

/-- The `back_reference_map` property: raises when the field is falsy. -/
def backMapAcc (s : SessionState) : Except Unit OidMap :=
  if falsyMap s.backMapF then .error () else .ok (s.backMapF.getD [])

/-- Decidable equality for `Except Unit`, used only to state concrete
evaluations of the accessors. -/
instance exceptUnitDecEq {α : Type _} [DecidableEq α] :
    DecidableEq (Except Unit α) := fun a b =>
  match a, b with
  | .ok x, .ok y =>
    if h : x = y then isTrue (by rw [h]) else isFalse (by simp [h])
  | .error _, .error _ => isTrue rfl
  | .ok _, .error _ => isFalse (by simp)
  | .error _, .ok _ => isFalse (by simp)

/-- Errors surfaced by `build_reference_maps`: the already-built guard, a
walk failure, and the not-built `RuntimeError` re-raised from inside the
build itself by a map-dependent property access. -/
inductive BuildErr
  | alreadyBuilt
  | walkFail (e : WalkErr)
  | notBuilt
deriving DecidableEq

/-- Model of `build_reference_maps`: refuse when a map field is already
truthy; load from the cache file when one exists (`cacheFile = some lines`),
otherwise walk the store from the root.  All three fields are assigned the
walk's (possibly partial) state even when the walk fails, matching the
in-place mutation of the Python attributes.  A successful scratch walk is
followed by `_store_reference_cache`, which reads the `reference_map`
property and hence raises the not-built `RuntimeError` when the freshly
built forward map is empty; on both branches the closing log line reads
the `oids` property, raising likewise when the OID set is empty (reachable
after loading an empty cache file). -/
def buildReferenceMaps (store : Store) (fuel : Nat)
    (cacheFile : Option (List (Oid × Oid))) (s : SessionState) :
    SessionState × Option BuildErr :=
  if ¬ falsyMap s.refMapF ∨ ¬ falsyMap s.backMapF then (s, some .alreadyBuilt)
  else
    match cacheFile with
    | some lines =>
      let (f, b, o) := loadCache lines
      let s1 : SessionState :=
        { oidsF := some o, refMapF := some f, backMapF := some b }
      (s1, if falsySet s1.oidsF then some .notBuilt else none)
    | none =>
      let (st, err) := walk store fuel [store.root] ⟨∅, [], []⟩
      let s1 : SessionState :=
        { oidsF := some st.oids, refMapF := some st.refMap,
          backMapF := some st.backMap }
      match err with
      | some e => (s1, some (.walkFail e))
      | none =>
        if falsyMap s1.refMapF then (s1, some .notBuilt)
        else (s1, if falsySet s1.oidsF then some .notBuilt else none)

/-- A path query issued against a session: `get_oid_path` reaches the maps
only through the `back_reference_map` / `reference_map` properties
(via `get_back_references` and the scorer's `get_references`), so it
raises their `RuntimeError` when the fields are falsy. -/
def getOidPathSess (s : SessionState) (gI : Oid → Option String)
    (gA : Oid → Oid → Option String) (fuel : Nat) (oid : Oid)
    (cache : PathCache) : Except Unit (Option (List Oid × PathCache)) := do
  let bm ← backMapAcc s
  let rm ← refMapAcc s
  pure (getOidPath ⟨rm, bm, gI, gA⟩ fuel oid [] cache)

/-- The slice of a live persistent object that the inspector facade reads:
its string form (`none` when `str` raises), the result of the
`getId()` / `.id` logic, its physical path (`none` when the lookup raises),
and the attribute name under which it holds a given child object. -/
structure PyObj where
  strRepr : Option String
  idAttr : Option String
  physicalPath : Option (List String)
  attrOf : Oid → Option String

/-- The store as the inspector sees it, plus the already built maps used by
the path resolver.  `loadObj o = none` models `get_obj(o)` raising
`POSKeyError` (the object vanished or is unreadable). -/
structure World where
  env : Env
  root : Oid
  loadObj : Oid → Option PyObj

/-- `get_obj_as_str`: any failure (unreadable object or failing `str`)
degrades to the fixed `'<error>'` marker; never raises. -/
def getObjAsStrW (w : World) (oid : Oid) : String :=
  match w.loadObj oid with
  | none => "<error>"
  | some ob => ob.strRepr.getD "<error>"

/-- `get_physical_path`: any failure degrades to `None`; never raises. -/
def getPhysicalPathW (w : World) (oid : Oid) : Option (List String) :=
  (w.loadObj oid).bind (fun ob => ob.physicalPath)

/-- `get_id`: loads the object (surfacing `POSKeyError` as `.error`), then
returns `'Root'` for the root OID or the object's identifier. -/
def getIdW (w : World) (oid : Oid) : Except Unit (Option String) :=
  match w.loadObj oid with
  | none => .error ()
  | some ob => .ok (if oid = w.root then some "Root" else ob.idAttr)

/-- `get_attr_name(oid, parent_oid)`: loads both objects (surfacing
`POSKeyError`), then searches the parent for an attribute holding the
child. -/
def getAttrNameW (w : World) (oid parent : Oid) : Except Unit (Option String) :=
  match w.loadObj oid, w.loadObj parent with
  | some _, some p => .ok (p.attrOf oid)
  | _, _ => .error ()

/-- Python truthiness of an optional identifier string. -/
def truthyStr : Option String → Bool
  | some s => decide (s ≠ "")
  | none => false

/-- `get_id_or_attr_name(oid, parent_oid)`: a truthy identifier wins,
otherwise the attribute name when a parent is given, else `None`. -/
def getIdOrAttrNameW (w : World) (oid : Oid) (parent : Option Oid) :
    Except Unit (Option String) := do
  let i ← getIdW w oid
  if truthyStr i then pure i
  else
    match parent with
    | some p => getAttrNameW w oid p
    | none => pure none

/-- `util.pairwise(path)`: consecutive pairs, the last element paired with
the `None` marker. -/
def pathPairs : List Oid → List (Oid × Option Oid)
  | [] => []
  | [x] => [(x, none)]
  | x :: y :: rest => (x, some y) :: pathPairs (y :: rest)

/-- `_oid_path_to_id_path` as used by `get_id_path`: label every pair,
aborting on the first `POSKeyError`. -/
def getIdPathW (w : World) (p : List Oid) : Except Unit (List (Option String)) :=
  (pathPairs p).mapM (fun pr => getIdOrAttrNameW w pr.1 pr.2)

/-- The `OIDInfo` record: unassigned fields keep the constructor default
`None`. -/
structure OIDInfoR where
  oid : Oid
  obj : Option String := none
  oidPath : Option (List Oid) := none
  idPath : Option (List (Option String)) := none
  id : Option String := none
  path : Option (List String) := none
deriving DecidableEq

/-- Model of `get_oid_info`: the fields are assigned in source order
(`obj`, `oid_path`, `id_path`, `id`, `path`) inside a single
`try/except POSKeyError: pass`, so the first store-read failure leaves that
field and every later field at `None` while the record is still returned.
The outer `none` only signals exhausted path-resolution fuel (a model
artifact). -/
def getOidInfoW (w : World) (fuel : Nat) (cache : PathCache) (oid : Oid) :
    Option OIDInfoR :=
  match getOidPath w.env fuel oid [] cache with
  | none => none
  | some (p, _) =>
    let i0 : OIDInfoR :=
      { oid := oid, obj := some ((getObjAsStrW w oid).take 50),
        oidPath := some p }
    match getIdPathW w p with
    | .error _ => some i0
    | .ok ids =>
      let i1 := { i0 with idPath := some ids }
      match getIdW w oid with
      | .error _ => some i1
      | .ok idv =>
        some { i1 with id := idv, path := getPhysicalPathW w oid }

section MapLemmas

theorem mkeys_nil : mkeys [] = [] := rfl

theorem mkeys_cons (k : Oid) (v : List Oid) (m : OidMap) :
    mkeys ((k, v) :: m) = k :: mkeys m := rfl

theorem mget_cons (k : Oid) (v : List Oid) (m : OidMap) (o : Oid) :
    mget ((k, v) :: m) o = if o = k then v else mget m o := rfl

theorem mem_addElem (v : List Oid) (x y : Oid) :
    y ∈ addElem v x ↔ y = x ∨ y ∈ v := by
  unfold addElem
  split
  · rename_i hx
    constructor
    · exact Or.inr
    · rintro (rfl | h)
      · exact hx
      · exact h
  · simp [List.mem_append]
    tauto

theorem mem_mget_madd (m : OidMap) (k x s y : Oid) :
    y ∈ mget (madd m k x) s ↔ y ∈ mget m s ∨ (s = k ∧ y = x) := by
  induction m with
  | nil =>
    simp only [madd, mget]
    by_cases h : s = k <;> simp [h]
  | cons hd tl ih =>
    obtain ⟨k', v⟩ := hd
    by_cases hk : k = k'
    · subst hk
      simp only [madd, eq_self_iff_true, if_true]
      by_cases hs : s = k
      · subst hs
        rw [mget_cons, if_pos rfl, mget_cons, if_pos rfl, mem_addElem]
        tauto
      · rw [mget_cons, if_neg hs, mget_cons, if_neg hs]
        simp [hs]
    · simp only [madd, if_neg hk]
      by_cases hs : s = k'
      · subst hs
        have hsk : ¬ s = k := fun h => hk (h ▸ rfl)
        rw [mget_cons, if_pos rfl, mget_cons, if_pos rfl]
        simp [hsk]
      · rw [mget_cons, if_neg hs, mget_cons, if_neg hs, ih]

theorem mem_mkeys_madd (m : OidMap) (k x o : Oid) :
    o ∈ mkeys (madd m k x) ↔ o ∈ mkeys m ∨ o = k := by
  induction m with
  | nil => simp [madd, mkeys]
  | cons hd tl ih =>
    obtain ⟨k', v⟩ := hd
    by_cases hk : k = k'
    · subst hk
      simp only [madd, eq_self_iff_true, if_true, mkeys_cons, List.mem_cons]
      tauto
    · simp only [madd, if_neg hk, mkeys_cons, List.mem_cons, ih]
      tauto

theorem mget_eq_nil_of_not_mem_mkeys {m : OidMap} {o : Oid}
    (h : o ∉ mkeys m) : mget m o = [] := by
  induction m with
  | nil => rfl
  | cons hd tl ih =>
    obtain ⟨k, v⟩ := hd
    rw [mkeys_cons, List.mem_cons] at h
    push_neg at h
    simp [mget, h.1, ih h.2]

theorem mem_mkeys_of_mget_ne_nil {m : OidMap} {o : Oid}
    (h : mget m o ≠ []) : o ∈ mkeys m := by
  by_contra hc
  exact h (mget_eq_nil_of_not_mem_mkeys hc)

theorem mem_mget_addBackRefs (b : OidMap) (src : Oid) (ts : List Oid) (t y : Oid) :
    y ∈ mget (addBackRefs b src ts) t ↔ y ∈ mget b t ∨ (t ∈ ts ∧ y = src) := by
  induction ts generalizing b with
  | nil => simp [addBackRefs]
  | cons hd tl ih =>
    simp only [addBackRefs, List.foldl_cons] at *
    rw [ih (madd b hd src), mem_mget_madd]
    simp only [List.mem_cons]
    tauto

theorem mem_mkeys_addBackRefs (b : OidMap) (src : Oid) (ts : List Oid) (o : Oid) :
    o ∈ mkeys (addBackRefs b src ts) ↔ o ∈ mkeys b ∨ o ∈ ts := by
  induction ts generalizing b with
  | nil => simp [addBackRefs]
  | cons hd tl ih =>
    simp only [addBackRefs, List.foldl_cons] at *
    rw [ih (madd b hd src), mem_mkeys_madd]
    simp only [List.mem_cons]
    tauto

end MapLemmas

section SortLemmas

variable {α : Type _} (f : α → Nat)

theorem mem_insertSorted (x : α) (l : List α) (y : α) :
    y ∈ insertSorted f x l ↔ y = x ∨ y ∈ l := by
  induction l with
  | nil => simp [insertSorted]
  | cons hd tl ih =>
    simp only [insertSorted]
    split
    · simp [List.mem_cons]
    · simp only [List.mem_cons, ih]
      tauto

theorem insertSorted_ne_nil (x : α) (l : List α) :
    insertSorted f x l ≠ [] := by
  cases l with
  | nil => simp [insertSorted]
  | cons hd tl =>
    simp only [insertSorted]
    split <;> simp

theorem mem_sortByNat (l : List α) (y : α) :
    y ∈ sortByNat f l ↔ y ∈ l := by
  induction l with
  | nil => simp [sortByNat]
  | cons hd tl ih =>
    simp only [sortByNat, List.foldr_cons] at *
    rw [mem_insertSorted]
    simp [ih]

theorem sortByNat_eq_nil_iff (l : List α) :
    sortByNat f l = [] ↔ l = [] := by
  induction l with
  | nil => simp [sortByNat]
  | cons hd tl ih =>
    simp only [sortByNat, List.foldr_cons]
    simpa using insertSorted_ne_nil f hd _

theorem sorted_insertSorted (x : α) (l : List α)
    (h : List.Sorted (fun a b => f a ≤ f b) l) :
    List.Sorted (fun a b => f a ≤ f b) (insertSorted f x l) := by
  induction l with
  | nil => simp [insertSorted]
  | cons hd tl ih =>
    rw [List.sorted_cons] at h
    simp only [insertSorted]
    split
    · rename_i hlt
      rw [List.sorted_cons]
      refine ⟨?_, List.sorted_cons.mpr h⟩
      intro y hy
      rcases List.mem_cons.mp hy with rfl | hmem
      · exact Nat.le_of_lt hlt
      · exact le_trans (Nat.le_of_lt hlt) (h.1 y hmem)
    · rename_i hge
      rw [List.sorted_cons]
      refine ⟨?_, ih h.2⟩
      intro y hy
      rcases (mem_insertSorted f x tl y).mp hy with rfl | hmem
      · exact Nat.le_of_not_lt hge
      · exact h.1 y hmem

theorem sorted_sortByNat (l : List α) :
    List.Sorted (fun a b => f a ≤ f b) (sortByNat f l) := by
  induction l with
  | nil => simp [sortByNat]
  | cons hd tl ih =>
    simp only [sortByNat, List.foldr_cons] at *
    exact sorted_insertSorted f hd _ ih

theorem head_min_sortByNat {l : List α} {x : α} {xs : List α}
    (h : sortByNat f l = x :: xs) : ∀ y ∈ l, f x ≤ f y := by
  intro y hy
  have hmem : y ∈ sortByNat f l := (mem_sortByNat f l y).mpr hy
  rw [h] at hmem
  rcases List.mem_cons.mp hmem with rfl | hmem
  · exact le_refl _
  · have hs := sorted_sortByNat f l
    rw [h, List.sorted_cons] at hs
    exact hs.1 y hmem

theorem head_mem_sortByNat {l : List α} {x : α} {xs : List α}
    (h : sortByNat f l = x :: xs) : x ∈ l := by
  have : x ∈ sortByNat f l := by rw [h]; exact List.mem_cons_self ..
  exact (mem_sortByNat f l x).mp this

end SortLemmas

section BestBackReferenceLemmas

theorem bestBackReference_eq_none_iff (e : Env) (t : Oid) (fb : List Oid) :
    bestBackReference e t fb = none ↔ ∀ b ∈ e.backRefs t, b ∈ fb := by
  unfold bestBackReference
  rw [List.head?_eq_none_iff, sortByNat_eq_nil_iff, List.filter_eq_nil_iff]
  constructor
  · intro h b hb
    by_contra hc
    exact absurd (by simpa using hc) (by simpa using h b hb)
  · intro h b hb
    simp [h b hb]

theorem bestBackReference_spec {e : Env} {t : Oid} {fb : List Oid} {b : Oid}
    (h : bestBackReference e t fb = some b) :
    b ∈ e.backRefs t ∧ b ∉ fb ∧
      ∀ x ∈ e.backRefs t, x ∉ fb → refScore e 3 b t ≤ refScore e 3 x t := by
  unfold bestBackReference at h
  rcases hs : sortByNat (fun br => refScore e 3 br t)
      ((e.backRefs t).filter (fun br => decide (br ∉ fb))) with _ | ⟨z, zs⟩
  · rw [hs] at h
    simp at h
  · rw [hs] at h
    simp only [List.head?_cons, Option.some.injEq] at h
    subst h
    have hmem := head_mem_sortByNat _ hs
    have hmin := head_min_sortByNat _ hs
    rw [List.mem_filter] at hmem
    refine ⟨hmem.1, by simpa using hmem.2, ?_⟩
    intro x hx hxfb
    exact hmin x (List.mem_filter.mpr ⟨hx, by simpa using hxfb⟩)

end BestBackReferenceLemmas

section CacheLemmas

theorem cacheFind_cons (k : Oid) (p : List Oid) (c : PathCache) (o : Oid) :
    cacheFind ((k, p) :: c) o = if o = k then some p else cacheFind c o := rfl

theorem cacheSetdefault_of_isSome {c : PathCache} {k : Oid} (p : List Oid)
    (h : (cacheFind c k).isSome) : cacheSetdefault c k p = c := by
  simp [cacheSetdefault, h]

theorem cacheSetdefault_of_none {c : PathCache} {k : Oid} (p : List Oid)
    (h : cacheFind c k = none) : cacheSetdefault c k p = (k, p) :: c := by
  simp [cacheSetdefault, h]

theorem cacheFind_insertSuffixes_of_some {c : PathCache} {k : Oid} {q : List Oid}
    (l : List Oid) (h : cacheFind c k = some q) :
    cacheFind (insertSuffixes c l) k = some q := by
  induction l generalizing c with
  | nil => exact h
  | cons x rest ih =>
    simp only [insertSuffixes]
    apply ih
    by_cases hx : (cacheFind c x).isSome
    · rw [cacheSetdefault_of_isSome _ hx]
      exact h
    · rw [cacheSetdefault_of_none _ (Option.not_isSome_iff_eq_none.mp hx),
        cacheFind_cons]
      split
      · rename_i hkx
        subst hkx
        rw [h] at hx
        simp at hx
      · exact h

theorem insertSuffixes_of_all_isSome {c : PathCache} {l : List Oid}
    (h : ∀ y ∈ l, (cacheFind c y).isSome) : insertSuffixes c l = c := by
  induction l with
  | nil => rfl
  | cons x rest ih =>
    simp only [insertSuffixes]
    rw [cacheSetdefault_of_isSome _ (h x (List.mem_cons_self ..))]
    exact ih (fun y hy => h y (List.mem_cons_of_mem _ hy))

theorem insertSuffixes_fresh_head {c : PathCache} {o : Oid} {rest : List Oid}
    (ho : cacheFind c o = none) (hrest : ∀ y ∈ rest, (cacheFind c y).isSome) :
    insertSuffixes c (o :: rest) = (o, o :: rest) :: c := by
  simp only [insertSuffixes]
  rw [cacheSetdefault_of_none _ ho]
  apply insertSuffixes_of_all_isSome
  intro y hy
  rw [cacheFind_cons]
  split
  · simp
  · exact hrest y hy

theorem cacheFind_insertSuffixes_changed {c : PathCache} {l : List Oid} {k : Oid}
    (h : cacheFind (insertSuffixes c l) k ≠ cacheFind c k) : k ∈ l := by
  induction l generalizing c with
  | nil => exact absurd rfl h
  | cons x rest ih =>
    simp only [insertSuffixes] at h
    by_cases hx : (cacheFind c x).isSome
    · rw [cacheSetdefault_of_isSome _ hx] at h
      exact List.mem_cons_of_mem _ (ih h)
    · rw [cacheSetdefault_of_none _ (Option.not_isSome_iff_eq_none.mp hx)] at h
      by_cases hk : k = x
      · exact hk ▸ List.mem_cons_self ..
      · apply List.mem_cons_of_mem
        apply ih
        intro hc
        apply h
        rw [hc, cacheFind_cons, if_neg hk]

/-- Every member of a list heads one of its suffixes. -/
theorem exists_suffix_of_mem {y : Oid} {l : List Oid} (h : y ∈ l) :
    ∃ t, List.IsSuffix (y :: t) l := by
  obtain ⟨s, t, rfl⟩ := List.append_of_mem h
  exact ⟨t, s, rfl⟩

end CacheLemmas

/-- The finite universe the path resolver can ever step into: the union of
all back-reference sets.  Every chosen back reference lies in it. -/
def backUniv (e : Env) : Finset Oid :=
  e.backMap.foldr (fun kv acc => kv.2.toFinset ∪ acc) ∅

theorem mem_foldr_union_of_mem_mget {m : OidMap} {t x : Oid}
    (h : x ∈ mget m t) :
    x ∈ m.foldr (fun kv acc => kv.2.toFinset ∪ acc) (∅ : Finset Oid) := by
  induction m with
  | nil => simp [mget] at h
  | cons hd tl ih =>
    obtain ⟨k, v⟩ := hd
    rw [mget_cons] at h
    simp only [List.foldr_cons, Finset.mem_union]
    by_cases ht : t = k
    · rw [if_pos ht] at h
      exact Or.inl (List.mem_toFinset.mpr h)
    · rw [if_neg ht] at h
      exact Or.inr (ih h)

theorem mem_backUniv_of_mem_backRefs {e : Env} {t x : Oid}
    (h : x ∈ e.backRefs t) : x ∈ backUniv e :=
  mem_foldr_union_of_mem_mget h

section TerminationLemmas

theorem bref_mem_sdiff {e : Env} {o bref : Oid} {pre : List Oid}
    (hb : bestBackReference e o (pre ++ [o]) = some bref) :
    bref ∈ backUniv e \ (pre.toFinset ∪ {o}) := by
  obtain ⟨hmem, hnf, _⟩ := bestBackReference_spec hb
  rw [List.mem_append, List.mem_singleton] at hnf
  push_neg at hnf
  rw [Finset.mem_sdiff, Finset.mem_union, Finset.mem_singleton]
  exact ⟨mem_backUniv_of_mem_backRefs hmem,
    by simp [List.mem_toFinset, hnf.1, hnf.2]⟩

theorem getOidPath_fuel_sufficient (e : Env) (f : Nat) :
    (∀ o pre c, (backUniv e \ (pre.toFinset ∪ {o})).card < f →
      (getOidPath e f o pre c).isSome) ∧
    (∀ o pre c, (backUniv e \ (pre.toFinset ∪ {o})).card ≤ f →
      (getOidPathBody e f o pre c).isSome) := by
  induction f with
  | zero =>
    refine ⟨fun o pre c h => absurd h (Nat.not_lt_zero _), ?_⟩
    intro o pre c h
    rcases hb : bestBackReference e o (pre ++ [o]) with _ | bref
    · simp [getOidPathBody, hb]
    · exfalso
      have hbm := bref_mem_sdiff hb
      have : 0 < (backUniv e \ (pre.toFinset ∪ {o})).card :=
        Finset.card_pos.mpr ⟨bref, hbm⟩
      omega
  | succ f ih =>
    have hP : ∀ o pre c, (backUniv e \ (pre.toFinset ∪ {o})).card < f + 1 →
        (getOidPath e (f + 1) o pre c).isSome := by
      intro o pre c h
      have hQ := ih.2 o pre c (Nat.lt_succ_iff.mp h)
      rcases hcf : cacheFind c o with _ | p
      · simpa only [getOidPath, hcf] using hQ
      · simp only [getOidPath, hcf]
        split
        · split
          · simp
          · exact hQ
        · exact hQ
    refine ⟨hP, ?_⟩
    intro o pre c h
    rcases hb : bestBackReference e o (pre ++ [o]) with _ | bref
    · simp [getOidPathBody, hb]
    · have hbm := bref_mem_sdiff hb
      have hcard : (backUniv e \ ((pre ++ [o]).toFinset ∪ {bref})).card < f + 1 := by
        have heq : backUniv e \ ((pre ++ [o]).toFinset ∪ {bref}) =
            (backUniv e \ (pre.toFinset ∪ {o})) \ {bref} := by
          rw [sdiff_sdiff]
          congr 1
          simp [List.toFinset_append]
        rw [heq, Finset.card_sdiff (Finset.singleton_subset_iff.mpr hbm),
          Finset.card_singleton]
        have hpos : 0 < (backUniv e \ (pre.toFinset ∪ {o})).card :=
          Finset.card_pos.mpr ⟨bref, hbm⟩
        omega
      have hsome := hP bref (pre ++ [o]) c hcard
      rcases hr : getOidPath e (f + 1) bref (pre ++ [o]) c with _ | pr
      · rw [hr] at hsome
        simp at hsome
      · obtain ⟨rest, c₁⟩ := pr
        simp [getOidPathBody, hb, hr]

end TerminationLemmas

/-- The invariant of the OID-path cache: every entry is a non-empty,
duplicate-free path headed by its key, and every suffix of a cached path is
itself cached under its own head.  The empty cache satisfies it, and every
run of `getOidPath` preserves it. -/
def SuffixClosed (c : PathCache) : Prop :=
  ∀ k p, cacheFind c k = some p →
    p.head? = some k ∧ p.Nodup ∧
    ∀ x t, List.IsSuffix (x :: t) p → cacheFind c x = some (x :: t)

theorem suffixClosed_nil : SuffixClosed [] := by
  intro k p h
  simp [cacheFind] at h

section PathShape

/-- Weak shape lemma: whatever the cache contents (as long as they satisfy
the cache invariant), a completed `getOidPath` call returns a path headed
by the queried OID, without duplicates, and disjoint from the preceding
path. -/
theorem getOidPath_shape (e : Env) (f : Nat) :
    (∀ o pre c p c', SuffixClosed c → o ∉ pre →
      getOidPath e f o pre c = some (p, c') →
      p.head? = some o ∧ p.Nodup ∧ ∀ y ∈ pre, y ∉ p) ∧
    (∀ o pre c p c', SuffixClosed c → o ∉ pre →
      getOidPathBody e f o pre c = some (p, c') →
      p.head? = some o ∧ p.Nodup ∧ ∀ y ∈ pre, y ∉ p) := by
  induction f with
  | zero =>
    refine ⟨fun o pre c p c' _ _ h => by simp [getOidPath] at h, ?_⟩
    intro o pre c p c' hsc ho h
    rcases hb : bestBackReference e o (pre ++ [o]) with _ | bref
    · simp only [getOidPathBody, hb, Option.some.injEq, Prod.mk.injEq] at h
      obtain ⟨rfl, _⟩ := h
      exact ⟨rfl, List.nodup_singleton o, fun y hy => by simp; rintro rfl; exact ho hy⟩
    · simp only [getOidPathBody, hb] at h
      rw [show getOidPath e 0 bref (pre ++ [o]) c = none by simp [getOidPath]] at h
      simp at h
  | succ f ih =>
    have hW : ∀ o pre c p c', SuffixClosed c → o ∉ pre →
        getOidPath e (f + 1) o pre c = some (p, c') →
        p.head? = some o ∧ p.Nodup ∧ ∀ y ∈ pre, y ∉ p := by
      intro o pre c p c' hsc ho h
      rcases hcf : cacheFind c o with _ | p₀
      · simp only [getOidPath, hcf] at h
        exact ih.2 o pre c p c' hsc ho h
      · simp only [getOidPath, hcf] at h
        by_cases hne : p₀ ≠ []
        · rw [if_pos hne] at h
          by_cases hall : p₀.all (fun x => decide (x ∉ pre)) = true
          · rw [if_pos hall] at h
            obtain ⟨hp, hc⟩ : p₀ = p ∧ c = c' := by
              simpa [Prod.ext_iff] using h
            subst hp
            subst hc
            obtain ⟨hh, hnd, _⟩ := hsc o _ hcf
            refine ⟨hh, hnd, ?_⟩
            intro y hy hyp
            simp only [List.all_eq_true, decide_eq_true_eq] at hall
            exact hall y hyp hy
          · rw [if_neg hall] at h
            exact ih.2 o pre c p c' hsc ho h
        · rw [if_neg hne] at h
          exact ih.2 o pre c p c' hsc ho h
    refine ⟨hW, ?_⟩
    intro o pre c p c' hsc ho h
    rcases hb : bestBackReference e o (pre ++ [o]) with _ | bref
    · simp only [getOidPathBody, hb, Option.some.injEq, Prod.mk.injEq] at h
      obtain ⟨rfl, _⟩ := h
      exact ⟨rfl, List.nodup_singleton o, fun y hy => by simp; rintro rfl; exact ho hy⟩
    · simp only [getOidPathBody, hb] at h
      rcases hr : getOidPath e (f + 1) bref (pre ++ [o]) c with _ | pr
      · rw [hr] at h; simp at h
      · obtain ⟨rest, c₁⟩ := pr
        rw [hr] at h
        simp only [Option.some.injEq, Prod.mk.injEq] at h
        obtain ⟨rfl, _⟩ := h
        have hbref : bref ∉ pre ++ [o] := (bestBackReference_spec hb).2.1
        obtain ⟨rh, rnd, rdisj⟩ := hW bref (pre ++ [o]) c rest c₁ hsc hbref hr
        have hor : o ∉ rest := rdisj o (by simp)
        refine ⟨rfl, List.nodup_cons.mpr ⟨hor, rnd⟩, ?_⟩
        intro y hy
        simp only [List.mem_cons, not_or]
        exact ⟨fun hyo => ho (hyo ▸ hy), rdisj y (List.mem_append_left _ hy)⟩

end PathShape

/-- Conclusions of a completed `getOidPath` run started on a well-formed
cache none of whose keys lie on the preceding path: the path shape facts,
preservation of the cache invariant, full memoization of the returned
path's suffixes, no overwriting of pre-existing entries, and no new keys
off the returned path. -/
def PathConcl (o : Oid) (pre p : List Oid) (c c' : PathCache) : Prop :=
  p.head? = some o ∧ p.Nodup ∧ (∀ y ∈ pre, y ∉ p) ∧
  SuffixClosed c' ∧
  (∀ x t, List.IsSuffix (x :: t) p → cacheFind c' x = some (x :: t)) ∧
  (∀ k q, cacheFind c k = some q → cacheFind c' k = some q) ∧
  (∀ k, cacheFind c' k ≠ cacheFind c k → k ∈ p)

theorem suffixClosed_extend {c₁ : PathCache} {o : Oid} {rest : List Oid}
    (hsc : SuffixClosed c₁) (ho : cacheFind c₁ o = none) (hor : o ∉ rest)
    (hnd : rest.Nodup)
    (h5 : ∀ x t, List.IsSuffix (x :: t) rest → cacheFind c₁ x = some (x :: t)) :
    SuffixClosed ((o, o :: rest) :: c₁) ∧
    ∀ x t, List.IsSuffix (x :: t) (o :: rest) →
      cacheFind ((o, o :: rest) :: c₁) x = some (x :: t) := by
  have hfind : ∀ x, cacheFind ((o, o :: rest) :: c₁) x =
      if x = o then some (o :: rest) else cacheFind c₁ x := fun x => rfl
  have h5' : ∀ x t, List.IsSuffix (x :: t) (o :: rest) →
      cacheFind ((o, o :: rest) :: c₁) x = some (x :: t) := by
    intro x t hsfx
    rcases List.suffix_cons_iff.mp hsfx with heq | hsfx'
    · injection heq with h1 h2
      subst h1
      subst h2
      rw [hfind, if_pos rfl]
    · have hx : x ∈ rest := hsfx'.subset (List.mem_cons_self ..)
      have hxo : x ≠ o := fun h => hor (h ▸ hx)
      rw [hfind, if_neg hxo]
      exact h5 x t hsfx'
  refine ⟨?_, h5'⟩
  intro k q hkq
  rw [hfind] at hkq
  by_cases hk : k = o
  · rw [if_pos hk] at hkq
    injection hkq with hq
    subst hk
    subst hq
    exact ⟨rfl, List.nodup_cons.mpr ⟨hor, hnd⟩, h5'⟩
  · rw [if_neg hk] at hkq
    obtain ⟨hh, hnd', hcl⟩ := hsc k q hkq
    refine ⟨hh, hnd', ?_⟩
    intro x t hsfx
    have hfx := hcl x t hsfx
    have hxo : x ≠ o := by
      intro hx
      rw [hx, ho] at hfx
      exact Option.noConfusion hfx
    rw [hfind, if_neg hxo]
    exact hfx

/-- Main cache lemma: a completed `getOidPath` run from a suffix-closed
cache whose keys avoid the preceding path satisfies `PathConcl`; likewise
for the body when additionally the queried OID is unkeyed.  Since the
public entry points always pass an empty preceding path, the key-avoidance
hypothesis is trivially satisfied there. -/
theorem getOidPath_cacheConcl (e : Env) (f : Nat) :
    (∀ o pre c p c', SuffixClosed c → (∀ y ∈ pre, cacheFind c y = none) →
      o ∉ pre → getOidPath e f o pre c = some (p, c') → PathConcl o pre p c c') ∧
    (∀ o pre c p c', SuffixClosed c → (∀ y ∈ pre, cacheFind c y = none) →
      o ∉ pre → cacheFind c o = none →
      getOidPathBody e f o pre c = some (p, c') → PathConcl o pre p c c') := by
  have hBodyNone : ∀ o pre (c : PathCache) p c', SuffixClosed c →
      o ∉ pre → cacheFind c o = none →
      bestBackReference e o (pre ++ [o]) = none →
      ([o], insertSuffixes c [o]) = (p, c') → PathConcl o pre p c c' := by
    intro o pre c p c' hsc ho hco hb hpc
    injection hpc with hp hc
    subst hp
    subst hc
    have hext := @suffixClosed_extend c o [] hsc hco (by simp)
      List.nodup_nil (by intro x t hsfx; exact absurd hsfx.length_le (by simp))
    have hins : insertSuffixes c [o] = (o, [o]) :: c :=
      insertSuffixes_fresh_head hco (by simp)
    rw [hins]
    refine ⟨rfl, List.nodup_singleton o,
      fun y hy => by simp; rintro rfl; exact ho hy, hext.1, hext.2, ?_, ?_⟩
    · intro k q hkq
      have hko : k ≠ o := by
        intro hk
        rw [hk, hco] at hkq
        exact Option.noConfusion hkq
      rw [cacheFind_cons, if_neg hko]
      exact hkq
    · intro k hne
      by_cases hk : k = o
      · simp [hk]
      · rw [cacheFind_cons, if_neg hk] at hne
        exact absurd rfl hne
  induction f with
  | zero =>
    refine ⟨fun o pre c p c' _ _ _ h => by simp [getOidPath] at h, ?_⟩
    intro o pre c p c' hsc hpu ho hco h
    rcases hb : bestBackReference e o (pre ++ [o]) with _ | bref
    · simp only [getOidPathBody, hb] at h
      exact hBodyNone o pre c p c' hsc ho hco hb (Option.some.inj h)
    · simp only [getOidPathBody, hb] at h
      rw [show getOidPath e 0 bref (pre ++ [o]) c = none by simp [getOidPath]] at h
      simp at h
  | succ f ih =>
    have hW : ∀ o pre c p c', SuffixClosed c →
        (∀ y ∈ pre, cacheFind c y = none) → o ∉ pre →
        getOidPath e (f + 1) o pre c = some (p, c') → PathConcl o pre p c c' := by
      intro o pre c p c' hsc hpu ho h
      rcases hcf : cacheFind c o with _ | p₀
      · simp only [getOidPath, hcf] at h
        exact ih.2 o pre c p c' hsc hpu ho hcf h
      · simp only [getOidPath, hcf] at h
        by_cases hne : p₀ ≠ []
        · rw [if_pos hne] at h
          by_cases hall : p₀.all (fun x => decide (x ∉ pre)) = true
          · rw [if_pos hall] at h
            obtain ⟨hp, hc⟩ : p₀ = p ∧ c = c' := by
              simpa [Prod.ext_iff] using h
            subst hp
            subst hc
            obtain ⟨hh, hnd, hcl⟩ := hsc o _ hcf
            simp only [List.all_eq_true, decide_eq_true_eq] at hall
            exact ⟨hh, hnd, fun y hy hyp => hall y hyp hy, hsc, hcl,
              fun k q hkq => hkq, fun k hne' => absurd rfl hne'⟩
          · exfalso
            simp only [List.all_eq_true, decide_eq_true_eq, not_forall] at hall
            obtain ⟨x, hxp, hxpre⟩ := hall
            have hxpre' : x ∈ pre := by
              by_contra hc2
              exact hxpre hc2
            obtain ⟨t, hsfx⟩ := exists_suffix_of_mem hxp
            have := (hsc o _ hcf).2.2 x t hsfx
            rw [hpu x hxpre'] at this
            exact Option.noConfusion this
        · exfalso
          rw [not_ne_iff] at hne
          subst hne
          have := (hsc o _ hcf).1
          simp at this
    refine ⟨hW, ?_⟩
    intro o pre c p c' hsc hpu ho hco h
    rcases hb : bestBackReference e o (pre ++ [o]) with _ | bref
    · simp only [getOidPathBody, hb] at h
      exact hBodyNone o pre c p c' hsc ho hco hb (Option.some.inj h)
    · simp only [getOidPathBody, hb] at h
      rcases hr : getOidPath e (f + 1) bref (pre ++ [o]) c with _ | pr
      · rw [hr] at h
        simp at h
      · obtain ⟨rest, c₁⟩ := pr
        rw [hr] at h
        simp only [Option.some.injEq, Prod.mk.injEq] at h
        obtain ⟨hp, hc⟩ := h
        subst hp
        subst hc
        have hpu' : ∀ y ∈ pre ++ [o], cacheFind c y = none := by
          intro y hy
          rcases List.mem_append.mp hy with hy' | hy'
          · exact hpu y hy'
          · rw [List.mem_singleton] at hy'
            exact hy' ▸ hco
        have hbref : bref ∉ pre ++ [o] := (bestBackReference_spec hb).2.1
        obtain ⟨r1, r2, r3, r4, r5, r6, r7⟩ :=
          hW bref (pre ++ [o]) c rest c₁ hsc hpu' hbref hr
        have hor : o ∉ rest := r3 o (by simp)
        have hc₁o : cacheFind c₁ o = none := by
          by_contra hne
          have : cacheFind c₁ o ≠ cacheFind c o := by rw [hco]; exact hne
          exact hor (r7 o this)
        have hrk : ∀ y ∈ rest, (cacheFind c₁ y).isSome := by
          intro y hy
          obtain ⟨t, hsfx⟩ := exists_suffix_of_mem hy
          rw [r5 y t hsfx]
          simp
        have hins : insertSuffixes c₁ (o :: rest) = (o, o :: rest) :: c₁ :=
          insertSuffixes_fresh_head hc₁o hrk
        rw [hins]
        have hext := suffixClosed_extend r4 hc₁o hor r2 r5
        refine ⟨rfl, List.nodup_cons.mpr ⟨hor, r2⟩, ?_, hext.1, hext.2, ?_, ?_⟩
        · intro y hy
          simp only [List.mem_cons, not_or]
          exact ⟨fun hyo => ho (hyo ▸ hy), r3 y (List.mem_append_left _ hy)⟩
        · intro k q hkq
          have hk₁ := r6 k q hkq
          have hko : k ≠ o := by
            intro hk
            rw [hk, hc₁o] at hk₁
            exact Option.noConfusion hk₁
          rw [cacheFind_cons, if_neg hko]
          exact hk₁
        · intro k hne
          by_cases hk : k = o
          · simp [hk]
          · rw [cacheFind_cons, if_neg hk] at hne
            by_cases hch : cacheFind c₁ k = cacheFind c k
            · rw [hch] at hne
              exact absurd rfl hne
            · exact List.mem_cons_of_mem _ (r7 k hch)

/-- The two maps are exact transposes of one another (membership-wise, with
missing keys reading as the empty set). -/
def Transposed (F B : OidMap) : Prop :=
  ∀ s t, t ∈ mget F s ↔ s ∈ mget B t

/-- Invariant carried by the from-scratch walk: maps transposed, every
recorded target visited or queued, every visited / queued OID is the root
or some recorded target, the root is visited or queued, forward keys are
visited, distinct, and bound to non-empty sets. -/
structure WalkInv (root : Oid) (wl : List Oid) (st : WalkState) : Prop where
  trans : Transposed st.refMap st.backMap
  targVis : ∀ t s, t ∈ mget st.refMap s → t ∈ st.oids ∨ t ∈ wl
  visOrig : ∀ o ∈ st.oids, o = root ∨ ∃ s, o ∈ mget st.refMap s
  wlOrig : ∀ o ∈ wl, o = root ∨ ∃ s, o ∈ mget st.refMap s
  rootIn : root ∈ st.oids ∨ root ∈ wl
  keysVis : ∀ k ∈ mkeys st.refMap, k ∈ st.oids
  keysNd : (mkeys st.refMap).Nodup
  valsNe : ∀ k ∈ mkeys st.refMap, mget st.refMap k ≠ []

/-- One step of map growth: consing a fresh key extends every read
monotonically (the fresh key previously read as the empty set). -/
theorem mget_cons_mono {m : OidMap} {o : Oid} (v : List Oid)
    (hfresh : o ∉ mkeys m) :
    ∀ s t, t ∈ mget m s → t ∈ mget ((o, v) :: m) s := by
  intro s t ht
  rw [mget_cons]
  split
  · rename_i hs
    subst hs
    rw [mget_eq_nil_of_not_mem_mkeys hfresh] at ht
    simp at ht
  · exact ht

theorem walkInv_preserved_step {root o : Oid} {rest : List Oid}
    {st : WalkState} {refs : List Oid}
    (inv : WalkInv root (o :: rest) st)
    (hvis : o ∉ st.oids) (hrefs : refs ≠ [])
    (hfresh : o ∉ mkeys st.refMap) :
    WalkInv root (rest ++ refs)
      ⟨insert o st.oids, (o, refs) :: st.refMap,
        addBackRefs st.backMap o refs⟩ := by
  have hFo : mget st.refMap o = [] := mget_eq_nil_of_not_mem_mkeys hfresh
  have hmo : mget ((o, refs) :: st.refMap) o = refs := by
    rw [mget_cons, if_pos rfl]
  have hms : ∀ s, s ≠ o → mget ((o, refs) :: st.refMap) s = mget st.refMap s :=
    fun s hs => by rw [mget_cons, if_neg hs]
  have hmono := @mget_cons_mono st.refMap o refs hfresh
  refine ⟨?_, ?_, ?_, ?_, ?_, ?_, ?_, ?_⟩
  · intro s t
    show t ∈ mget ((o, refs) :: st.refMap) s ↔
      s ∈ mget (addBackRefs st.backMap o refs) t
    rw [mem_mget_addBackRefs]
    by_cases hs : s = o
    · subst hs
      rw [hmo]
      constructor
      · intro ht
        exact Or.inr ⟨ht, rfl⟩
      · rintro (h | ⟨ht, -⟩)
        · have := (inv.trans s t).mpr h
          rw [hFo] at this
          simp at this
        · exact ht
    · rw [hms s hs]
      constructor
      · intro ht
        exact Or.inl ((inv.trans s t).mp ht)
      · rintro (h | ⟨-, hso⟩)
        · exact (inv.trans s t).mpr h
        · exact absurd hso hs
  · intro t s ht
    show t ∈ insert o st.oids ∨ t ∈ rest ++ refs
    by_cases hs : s = o
    · subst hs
      rw [hmo] at ht
      exact Or.inr (List.mem_append_right _ ht)
    · rw [hms s hs] at ht
      rcases inv.targVis t s ht with h | h
      · exact Or.inl (Finset.mem_insert_of_mem h)
      · rcases List.mem_cons.mp h with rfl | h2
        · exact Or.inl (Finset.mem_insert_self ..)
        · exact Or.inr (List.mem_append_left _ h2)
  · intro o2 ho2
    rcases Finset.mem_insert.mp ho2 with rfl | h
    · rcases inv.wlOrig o2 (List.mem_cons_self ..) with h | ⟨s, hs⟩
      · exact Or.inl h
      · exact Or.inr ⟨s, hmono s o2 hs⟩
    · rcases inv.visOrig o2 h with h2 | ⟨s, hs⟩
      · exact Or.inl h2
      · exact Or.inr ⟨s, hmono s o2 hs⟩
  · intro o2 ho2
    rcases List.mem_append.mp ho2 with h | h
    · rcases inv.wlOrig o2 (List.mem_cons_of_mem _ h) with h2 | ⟨s, hs⟩
      · exact Or.inl h2
      · exact Or.inr ⟨s, hmono s o2 hs⟩
    · refine Or.inr ⟨o, ?_⟩
      rw [hmo]
      exact h
  · rcases inv.rootIn with h | h
    · exact Or.inl (Finset.mem_insert_of_mem h)
    · rcases List.mem_cons.mp h with rfl | h2
      · exact Or.inl (Finset.mem_insert_self ..)
      · exact Or.inr (List.mem_append_left _ h2)
  · intro k hk
    rw [show mkeys ((o, refs) :: st.refMap) = o :: mkeys st.refMap from rfl] at hk
    rcases List.mem_cons.mp hk with rfl | h
    · exact Finset.mem_insert_self ..
    · exact Finset.mem_insert_of_mem (inv.keysVis k h)
  · rw [show mkeys ((o, refs) :: st.refMap) = o :: mkeys st.refMap from rfl]
    exact List.nodup_cons.mpr ⟨hfresh, inv.keysNd⟩
  · intro k hk
    rw [show mkeys ((o, refs) :: st.refMap) = o :: mkeys st.refMap from rfl] at hk
    rcases List.mem_cons.mp hk with rfl | h
    · rw [hmo]
      exact hrefs
    · have hko : k ≠ o := fun hko => hfresh (hko ▸ h)
      rw [hms k hko]
      exact inv.valsNe k h

theorem walkInv_preserved_skip {root o : Oid} {rest : List Oid} {st : WalkState}
    (inv : WalkInv root (o :: rest) st) (hvis : o ∈ st.oids) :
    WalkInv root rest st := by
  refine ⟨inv.trans, ?_, inv.visOrig, ?_, ?_, inv.keysVis, inv.keysNd, inv.valsNe⟩
  · intro t s ht
    rcases inv.targVis t s ht with h | h
    · exact Or.inl h
    · rcases List.mem_cons.mp h with rfl | h2
      · exact Or.inl hvis
      · exact Or.inr h2
  · exact fun o2 ho2 => inv.wlOrig o2 (List.mem_cons_of_mem _ ho2)
  · rcases inv.rootIn with h | h
    · exact Or.inl h
    · rcases List.mem_cons.mp h with rfl | h2
      · exact Or.inl hvis
      · exact Or.inr h2

theorem walkInv_preserved_leaf {root o : Oid} {rest : List Oid} {st : WalkState}
    (inv : WalkInv root (o :: rest) st) :
    WalkInv root rest { st with oids := insert o st.oids } := by
  refine ⟨inv.trans, ?_, ?_, ?_, ?_, ?_, inv.keysNd, inv.valsNe⟩
  · intro t s ht
    rcases inv.targVis t s ht with h | h
    · exact Or.inl (Finset.mem_insert_of_mem h)
    · rcases List.mem_cons.mp h with rfl | h2
      · exact Or.inl (Finset.mem_insert_self ..)
      · exact Or.inr h2
  · intro o2 ho2
    rcases Finset.mem_insert.mp ho2 with rfl | h
    · exact inv.wlOrig o2 (List.mem_cons_self ..)
    · exact inv.visOrig o2 h
  · exact fun o2 ho2 => inv.wlOrig o2 (List.mem_cons_of_mem _ ho2)
  · rcases inv.rootIn with h | h
    · exact Or.inl (Finset.mem_insert_of_mem h)
    · rcases List.mem_cons.mp h with rfl | h2
      · exact Or.inl (Finset.mem_insert_self ..)
      · exact Or.inr h2
  · exact fun k hk => Finset.mem_insert_of_mem (inv.keysVis k hk)

/-- A successful walk carries the invariant to its final state with an
empty work list. -/
theorem walk_preserves_inv (store : Store) :
    ∀ f wl st st', walk store f wl st = (st', none) →
      WalkInv store.root wl st → WalkInv store.root [] st' := by
  intro f
  induction f with
  | zero =>
    intro wl st st' h
    simp [walk] at h
  | succ f ih =>
    intro wl st st' h inv
    rcases wl with _ | ⟨o, rest⟩
    · simp only [walk] at h
      obtain ⟨rfl, -⟩ := Prod.mk.injEq .. ▸ h
      exact inv
    · simp only [walk] at h
      by_cases hvis : o ∈ st.oids
      · rw [if_pos hvis] at h
        exact ih rest st st' h (walkInv_preserved_skip inv hvis)
      · rw [if_neg hvis] at h
        split at h
        · simp at h
        · split at h
          · exact ih rest _ st' h (walkInv_preserved_leaf inv)
          · split at h
            · simp at h
            · rename_i hrefs hkey
              exact ih _ _ st' h (walkInv_preserved_step inv hvis hrefs hkey)

theorem walkInv_init (root : Oid) : WalkInv root [root] ⟨∅, [], []⟩ := by
  refine ⟨?_, ?_, ?_, ?_, ?_, ?_, ?_, ?_⟩
  · intro s t
    simp [mget]
  · intro t s ht
    simp [mget] at ht
  · intro o ho
    simp at ho
  · intro o ho
    rw [List.mem_singleton] at ho
    exact Or.inl ho
  · exact Or.inr (List.mem_singleton.mpr rfl)
  · intro k hk
    simp [mkeys] at hk
  · exact List.nodup_nil
  · intro k hk
    simp [mkeys] at hk

section LoadStoreLemmas

theorem loadFold_spec (lines : List (Oid × Oid)) :
    ∀ (F B : OidMap) (s x : Oid),
      (x ∈ mget (lines.foldl loadStep (F, B)).1 s ↔
        x ∈ mget F s ∨ (s, x) ∈ lines) ∧
      (x ∈ mget (lines.foldl loadStep (F, B)).2 s ↔
        x ∈ mget B s ∨ (x, s) ∈ lines) := by
  induction lines with
  | nil => intro F B s x; simp
  | cons ln rest ih =>
    intro F B s x
    obtain ⟨a, b⟩ := ln
    simp only [List.foldl_cons, loadStep]
    constructor
    · rw [(ih (madd F a b) (madd B b a) s x).1, mem_mget_madd]
      constructor
      · rintro ((h | ⟨rfl, rfl⟩) | h)
        · exact Or.inl h
        · exact Or.inr (List.mem_cons_self ..)
        · exact Or.inr (List.mem_cons_of_mem _ h)
      · rintro (h | h)
        · exact Or.inl (Or.inl h)
        · rcases List.mem_cons.mp h with heq | h2
          · obtain ⟨rfl, rfl⟩ := Prod.mk.injEq .. ▸ heq
            exact Or.inl (Or.inr ⟨rfl, rfl⟩)
          · exact Or.inr h2
    · rw [(ih (madd F a b) (madd B b a) s x).2, mem_mget_madd]
      constructor
      · rintro ((h | ⟨rfl, rfl⟩) | h)
        · exact Or.inl h
        · exact Or.inr (List.mem_cons_self ..)
        · exact Or.inr (List.mem_cons_of_mem _ h)
      · rintro (h | h)
        · exact Or.inl (Or.inl h)
        · rcases List.mem_cons.mp h with heq | h2
          · obtain ⟨rfl, rfl⟩ := Prod.mk.injEq .. ▸ heq
            exact Or.inl (Or.inr ⟨rfl, rfl⟩)
          · exact Or.inr h2

theorem loadFold_keys (lines : List (Oid × Oid)) :
    ∀ (F B : OidMap) (k : Oid),
      (k ∈ mkeys (lines.foldl loadStep (F, B)).1 ↔
        k ∈ mkeys F ∨ ∃ t, (k, t) ∈ lines) ∧
      (k ∈ mkeys (lines.foldl loadStep (F, B)).2 ↔
        k ∈ mkeys B ∨ ∃ s, (s, k) ∈ lines) := by
  induction lines with
  | nil => intro F B k; simp
  | cons ln rest ih =>
    intro F B k
    obtain ⟨a, b⟩ := ln
    simp only [List.foldl_cons, loadStep]
    have h1 := (ih (madd F a b) (madd B b a) k).1
    have h2 := (ih (madd F a b) (madd B b a) k).2
    rw [h1, h2, mem_mkeys_madd, mem_mkeys_madd]
    constructor
    · constructor
      · rintro ((h | h) | h)
        · exact Or.inl h
        · exact Or.inr ⟨b, h ▸ List.mem_cons_self ..⟩
        · obtain ⟨t, ht⟩ := h
          exact Or.inr ⟨t, List.mem_cons_of_mem _ ht⟩
      · rintro (h | ⟨t, ht⟩)
        · exact Or.inl (Or.inl h)
        · rcases List.mem_cons.mp ht with heq | h2
          · obtain ⟨rfl, -⟩ := Prod.mk.injEq .. ▸ heq
            exact Or.inl (Or.inr rfl)
          · exact Or.inr ⟨t, h2⟩
    · constructor
      · rintro ((h | h) | h)
        · exact Or.inl h
        · exact Or.inr ⟨a, h ▸ List.mem_cons_self ..⟩
        · obtain ⟨s2, hs2⟩ := h
          exact Or.inr ⟨s2, List.mem_cons_of_mem _ hs2⟩
      · rintro (h | ⟨s2, hs2⟩)
        · exact Or.inl (Or.inl h)
        · rcases List.mem_cons.mp hs2 with heq | h2
          · obtain ⟨-, rfl⟩ := Prod.mk.injEq .. ▸ heq
            exact Or.inl (Or.inr rfl)
          · exact Or.inr ⟨s2, h2⟩

theorem mem_mkeys_of_entry {m : OidMap} {s : Oid} {v : List Oid}
    (h : (s, v) ∈ m) : s ∈ mkeys m :=
  List.mem_map_of_mem Prod.fst h

theorem mget_eq_of_entry_of_nodup {m : OidMap} (hnd : (mkeys m).Nodup)
    {s : Oid} {v : List Oid} (h : (s, v) ∈ m) : mget m s = v := by
  induction m with
  | nil => simp at h
  | cons hd tl ih =>
    obtain ⟨k, w⟩ := hd
    rw [mkeys_cons, List.nodup_cons] at hnd
    rcases List.mem_cons.mp h with heq | h2
    · obtain ⟨rfl, rfl⟩ := Prod.mk.injEq .. ▸ heq
      rw [mget_cons, if_pos rfl]
    · have hs : s ∈ mkeys tl := mem_mkeys_of_entry h2
      have hsk : s ≠ k := fun hsk => hnd.1 (hsk ▸ hs)
      rw [mget_cons, if_neg hsk]
      exact ih hnd.2 h2

theorem entry_of_mget_ne_nil {m : OidMap} {s : Oid}
    (h : mget m s ≠ []) : (s, mget m s) ∈ m := by
  induction m with
  | nil => exact absurd rfl h
  | cons hd tl ih =>
    obtain ⟨k, w⟩ := hd
    by_cases hs : s = k
    · subst hs
      rw [mget_cons, if_pos rfl]
      exact List.mem_cons_self ..
    · rw [mget_cons, if_neg hs] at h ⊢
      exact List.mem_cons_of_mem _ (ih h)

theorem mem_storeCache {m : OidMap} (hnd : (mkeys m).Nodup) (s t : Oid) :
    (s, t) ∈ storeCache m ↔ t ∈ mget m s := by
  unfold storeCache
  rw [List.mem_flatMap]
  constructor
  · rintro ⟨⟨s2, v⟩, hmem, hmap⟩
    rw [List.mem_map] at hmap
    obtain ⟨t2, ht2, heq⟩ := hmap
    obtain ⟨rfl, rfl⟩ := Prod.mk.injEq .. ▸ heq
    rw [mem_sortByNat] at hmem
    rw [mget_eq_of_entry_of_nodup hnd hmem]
    exact (mem_sortByNat _ _ _).mp ht2
  · intro ht
    refine ⟨(s, mget m s), ?_, ?_⟩
    · rw [mem_sortByNat]
      exact entry_of_mget_ne_nil (List.ne_nil_of_mem ht)
    · rw [List.mem_map]
      exact ⟨t, (mem_sortByNat _ _ _).mpr ht, rfl⟩

end LoadStoreLemmas

/-- Concrete store whose root references one further object that loads
cleanly and has no references of its own. -/
def storeTwo : Store := ⟨0, fun o => if o = 0 then some [1] else some []⟩

/-- C1.  Transpose invariant: after the maps are built — by the
from-scratch store walk or by loading the cache file — an OID `t` lies in
the forward-map entry of `s` exactly when `s` lies in the back-map entry
of `t`. -/
theorem claim1_transpose_invariant :
    (∀ (store : Store) (f : Nat) (st : WalkState),
      walk store f [store.root] ⟨∅, [], []⟩ = (st, none) →
      ∀ s t, t ∈ mget st.refMap s ↔ s ∈ mget st.backMap t) ∧
    (∀ (lines : List (Oid × Oid)) (s t : Oid),
      t ∈ mget (loadCache lines).1 s ↔ s ∈ mget (loadCache lines).2.1 t) := by
  constructor
  · intro store f st h s t
    exact (walk_preserves_inv store f _ _ st h (walkInv_init store.root)).trans s t
  · intro lines s t
    show t ∈ mget (lines.foldl loadStep ([], [])).1 s ↔
      s ∈ mget (lines.foldl loadStep ([], [])).2 t
    rw [(loadFold_spec lines [] [] s t).1, (loadFold_spec lines [] [] t s).2]
    simp [mget]

/-- Witness for C1 at a concrete two-object store and a concrete one-line
cache file. -/
theorem claim1_transpose_invariant_witness :
    ((1 : Oid) ∈ mget (walk storeTwo 3 [storeTwo.root] ⟨∅, [], []⟩).1.refMap 0 ↔
      (0 : Oid) ∈ mget (walk storeTwo 3 [storeTwo.root] ⟨∅, [], []⟩).1.backMap 1) ∧
    ((5 : Oid) ∈ mget (loadCache [(4, 5)]).1 4 ↔
      (4 : Oid) ∈ mget (loadCache [(4, 5)]).2.1 5) :=
  ⟨claim1_transpose_invariant.1 storeTwo 3
      (walk storeTwo 3 [storeTwo.root] ⟨∅, [], []⟩).1 rfl 0 1,
    claim1_transpose_invariant.2 [(4, 5)] 4 5⟩

/-- C2.  Path-resolver termination: for every environment, queried OID,
forbidden (preceding) path and cache, `get_oid_path` completes within
`|OID universe| + 1` call frames — the fuel bound derived from the
shrinking-forbidden-set argument — so the recursion always terminates. -/
theorem claim2_path_resolver_terminates (e : Env) (o : Oid)
    (pre : List Oid) (c : PathCache) :
    (getOidPath e ((backUniv e).card + 1) o pre c).isSome := by
  apply (getOidPath_fuel_sufficient e ((backUniv e).card + 1)).1
  have hsub : backUniv e \ (pre.toFinset ∪ {o}) ⊆ backUniv e :=
    Finset.sdiff_subset
  have := Finset.card_le_card hsub
  omega

/-- C3.  Path cycle-freedom: any completed top-level `get_oid_path` call
(raw or representation argument, any suffix-closed session cache) returns
a non-empty path whose first element is the normalized raw OID and which
contains no duplicate OID. -/
theorem claim3_path_cycle_free (e : Env) (f : Nat) (a : OidArg)
    (c : PathCache) (p : List Oid) (c' : PathCache)
    (hsc : SuffixClosed c) (h : getOidPathArg e f a c = some (p, c')) :
    p ≠ [] ∧ p.head? = some (oidOrReprToOid a) ∧ p.Nodup := by
  have hshape : p.head? = some (oidOrReprToOid a) ∧ p.Nodup := by
    rcases f with _ | f
    · simp [getOidPathArg] at h
    · rcases a with o | o
      · have := (getOidPath_shape e (f + 1)).1 o [] c p c' hsc (by simp) h
        exact ⟨this.1, this.2.1⟩
      · have := (getOidPath_shape e f).2 o [] c p c' hsc (by simp) h
        exact ⟨this.1, this.2.1⟩
  refine ⟨?_, hshape.1, hshape.2⟩
  intro hnil
  rw [hnil] at hshape
  simp at hshape

/-- Concrete four-object environment: forward references
`5 → 1`, `2 → 5`, `3 → 2`, `1 → 2`; OID `1` carries an identifier, every
attribute lookup reports the penalized name `'ids'`. -/
def envFour : Env :=
  { refMap := [(5, [1]), (2, [5]), (3, [2]), (1, [2])]
    backMap := [(1, [5]), (5, [2]), (2, [3, 1]), (3, [])]
    getId := fun o => if o = 1 then some "nice" else none
    getAttrName := fun _ _ => some "ids" }

/-- Witness for C3: a concrete resolution in `envFour` from a fresh cache. -/
theorem claim3_path_cycle_free_witness :
    ([1, 5, 2, 3] : List Oid) ≠ [] ∧
      ([1, 5, 2, 3] : List Oid).head? = some (oidOrReprToOid (.raw 1)) ∧
      ([1, 5, 2, 3] : List Oid).Nodup :=
  claim3_path_cycle_free envFour 10 (.raw 1) [] [1, 5, 2, 3]
    [(1, [1, 5, 2, 3]), (5, [5, 2, 3]), (2, [2, 3]), (3, [3])]
    suffixClosed_nil (by decide)

/-- Unconditional unfolding equation of `refScore` (the structural
recursion matches on the depth first, so the equation is proved by cases
on it). -/
theorem refScore_eq (e : Env) (d : Nat) (s t : Oid) :
    refScore e d s t =
      (if s ∈ e.refs t then 90
       else
         match truthyId (e.getId s) with
         | some i => idScore i
         | none =>
           if e.getAttrName t s = some "ids" ∨ e.getAttrName t s = some "refs" ∨
              e.getAttrName t s = some "_next" then 80
           else if e.getAttrName t s = some "_tree" ∨
              e.getAttrName t s = some "_blob" then 20
           else if e.getAttrName t s = none ∨ e.getAttrName t s = some "" ∨
              e.getAttrName t s = some "_firstbucket" then
             match d with
             | 0 => 70
             | d2 + 1 =>
               match ((e.backRefs s).map (fun b => refScore e d2 b s)).min? with
               | some m => if m ≤ 50 then 30 else 70
               | none => 70
           else 50) := by
  cases d <;> rfl

theorem refScore_le_100 (e : Env) (d : Nat) (s t : Oid) :
    refScore e d s t ≤ 100 := by
  rw [refScore_eq]
  repeat' split
  all_goals first
  | decide
  | (unfold idScore
     repeat' split
     all_goals decide)

theorem refScore_attr_branch (e : Env) (d : Nat) (s t : Oid)
    (href : s ∉ e.refs t) (hid : e.getId s = none ∨ e.getId s = some "") :
    refScore e d s t =
      (if e.getAttrName t s = some "ids" ∨ e.getAttrName t s = some "refs" ∨
          e.getAttrName t s = some "_next" then 80
       else if e.getAttrName t s = some "_tree" ∨
          e.getAttrName t s = some "_blob" then 20
       else if e.getAttrName t s = none ∨ e.getAttrName t s = some "" ∨
          e.getAttrName t s = some "_firstbucket" then
         match d with
         | 0 => 70
         | d2 + 1 =>
           match ((e.backRefs s).map (fun b => refScore e d2 b s)).min? with
           | some m => if m ≤ 50 then 30 else 70
           | none => 70
       else 50) := by
  rw [refScore_eq]
  rw [if_neg href]
  rcases hid with h | h <;> simp [h, truthyId]

/-- C5.  Scorer rule table: the reference score is always in `[0, 100]`
(the lower bound holds because scores are natural numbers) and follows the
fixed first-match rule order of `_get_reference_score`: `90` for a
bidirectional reference; else, with a truthy identifier, `20` for the
`'ldapauth'` sentinel, `60` for `'IIntIds'`, `10` otherwise; else `80` for
a penalized attribute name, `20` for a favoured one; else, for a missing,
empty or `'_firstbucket'` attribute name, `70` at exhausted depth or when
there is no look-ahead candidate, and otherwise `30` when the best
look-ahead score (source and target swapped, depth reduced) is at most
`50` and `70` when it is not; else `50`. -/
theorem claim5_scorer_rule_table (e : Env) (d : Nat) (s t : Oid) :
    refScore e d s t ≤ 100 ∧
    (s ∈ e.refs t → refScore e d s t = 90) ∧
    (∀ i, s ∉ e.refs t → e.getId s = some i → i ≠ "" →
      ((i = "ldapauth" → refScore e d s t = 20) ∧
       (i = "IIntIds" → refScore e d s t = 60) ∧
       (i ≠ "ldapauth" → i ≠ "IIntIds" → refScore e d s t = 10))) ∧
    (s ∉ e.refs t → (e.getId s = none ∨ e.getId s = some "") →
      (e.getAttrName t s = some "ids" ∨ e.getAttrName t s = some "refs" ∨
        e.getAttrName t s = some "_next") →
      refScore e d s t = 80) ∧
    (s ∉ e.refs t → (e.getId s = none ∨ e.getId s = some "") →
      (e.getAttrName t s = some "_tree" ∨ e.getAttrName t s = some "_blob") →
      refScore e d s t = 20) ∧
    (s ∉ e.refs t → (e.getId s = none ∨ e.getId s = some "") →
      (e.getAttrName t s = none ∨ e.getAttrName t s = some "" ∨
        e.getAttrName t s = some "_firstbucket") →
      ((d = 0 → refScore e d s t = 70) ∧
       (∀ d2, d = d2 + 1 →
         ((((e.backRefs s).map (fun b => refScore e d2 b s)).min? = none →
            refScore e d s t = 70) ∧
          (∀ m, ((e.backRefs s).map (fun b => refScore e d2 b s)).min? = some m →
            ((m ≤ 50 → refScore e d s t = 30) ∧
             (¬ m ≤ 50 → refScore e d s t = 70))))))) ∧
    (∀ n, s ∉ e.refs t → (e.getId s = none ∨ e.getId s = some "") →
      e.getAttrName t s = some n →
      n ≠ "ids" → n ≠ "refs" → n ≠ "_next" → n ≠ "_tree" → n ≠ "_blob" →
      n ≠ "" → n ≠ "_firstbucket" → refScore e d s t = 50) := by
  refine ⟨refScore_le_100 e d s t, ?_, ?_, ?_, ?_, ?_, ?_⟩
  · intro h
    rw [refScore_eq, if_pos h]
  · intro i href hid hne
    have hscore : refScore e d s t = idScore i := by
      rw [refScore_eq, if_neg href]
      simp [truthyId, hid, hne]
    refine ⟨?_, ?_, ?_⟩
    · intro h
      rw [hscore, idScore, if_pos h]
    · intro h
      rw [hscore, idScore, if_neg (by simp [h]), if_pos h]
    · intro h1 h2
      rw [hscore, idScore, if_neg h1, if_neg h2]
  · intro href hid hattr
    rw [refScore_attr_branch e d s t href hid, if_pos hattr]
  · intro href hid hattr
    rw [refScore_attr_branch e d s t href hid, if_neg ?hbad, if_pos hattr]
    case hbad =>
      rcases hattr with h | h <;> simp [h]
  · intro href hid hattr
    have hbase := refScore_attr_branch e d s t href hid
    have hbad : ¬ (e.getAttrName t s = some "ids" ∨
        e.getAttrName t s = some "refs" ∨ e.getAttrName t s = some "_next") := by
      rcases hattr with h | h | h <;> simp [h]
    have hgood : ¬ (e.getAttrName t s = some "_tree" ∨
        e.getAttrName t s = some "_blob") := by
      rcases hattr with h | h | h <;> simp [h]
    rw [if_neg hbad, if_neg hgood, if_pos hattr] at hbase
    constructor
    · intro hd
      subst hd
      rw [hbase]
    · intro d2 hd
      subst hd
      constructor
      · intro hmin
        rw [hbase]
        simp only [hmin]
      · intro m hmin
        constructor
        · intro hm
          rw [hbase]
          simp only [hmin]
          simp [hm]
        · intro hm
          rw [hbase]
          simp only [hmin]
          simp [hm]
  · intro n href hid hattr h1 h2 h3 h4 h5 h6 h7
    rw [refScore_attr_branch e d s t href hid, if_neg (by simp [hattr, h1, h2, h3]),
      if_neg (by simp [hattr, h4, h5]), if_neg (by simp [hattr, h6, h7])]

/-- Witness for C5: in `envFour`, OID `5` is referenced back by its target
`2`, so the bidirectional rule fires and scores `90`. -/
theorem claim5_scorer_rule_table_witness : refScore envFour 3 5 2 = 90 :=
  (claim5_scorer_rule_table envFour 3 5 2).2.1 (by decide)

/-- The cache left behind by resolving OID `1` in `envFour` from a fresh
session: every suffix of the resulting path `[1, 5, 2, 3]` is memoized. -/
def cacheFour : PathCache :=
  [(1, [1, 5, 2, 3]), (5, [5, 2, 3]), (2, [2, 3]), (3, [3])]

/-- Counterexample to C4 as stated: in `envFour`, after the session's
first query resolves OID `1` to `[1, 5, 2, 3]`, a second query for OID `2`
answers `[2, 3]` from the OID-path cache.  Its second element `3` is a
back-reference of `2`, but not one of minimal score: the eligible
candidate `1` scores `10` (resolvable identifier) while `3` scores `80`
(penalized attribute name).  The minimal-score property therefore fails
for cache-hit answers. -/
theorem claim4_counterexample :
    getOidPath envFour 10 1 [] [] = some ([1, 5, 2, 3], cacheFour) ∧
    getOidPath envFour 10 2 [] cacheFour = some ([2, 3], cacheFour) ∧
    (1 : Oid) ∈ envFour.backRefs 2 ∧ (1 : Oid) ∉ ([2] : List Oid) ∧
    (3 : Oid) ∈ envFour.backRefs 2 ∧
    refScore envFour 3 1 2 < refScore envFour 3 3 2 := by
  refine ⟨?_, ?_, ?_, ?_, ?_, ?_⟩ <;> · set_option maxRecDepth 4000 in decide

/-- C4 (amended).  Best-scored-first prefix property, restricted to calls
that do not hit the OID-path cache (in particular any query of a fresh
session): the returned path starts with the queried OID; when no eligible
back-reference exists the path is the singleton; and the second element of
a longer path is an eligible back-reference of minimal score among the
back-references outside the forbidden set `[o]`.  A cache hit may instead
return a suffix whose second element was minimal for the earlier query's
larger forbidden set (see the counterexample). -/
theorem claim4_best_scored_first_amended (e : Env) (f : Nat) (o : Oid)
    (c : PathCache) (p : List Oid) (c' : PathCache)
    (hsc : SuffixClosed c) (hmiss : cacheFind c o = none)
    (h : getOidPath e f o [] c = some (p, c')) :
    p.head? = some o ∧
    (bestBackReference e o [o] = none → p = [o]) ∧
    (∀ a rest, p = o :: a :: rest →
      a ∈ e.backRefs o ∧ a ∉ ([o] : List Oid) ∧
      ∀ b ∈ e.backRefs o, b ∉ ([o] : List Oid) →
        refScore e 3 a o ≤ refScore e 3 b o) := by
  rcases f with _ | f
  · simp [getOidPath] at h
  have hhead : p.head? = some o :=
    ((getOidPath_shape e (f + 1)).1 o [] c p c' hsc (by simp) h).1
  rw [getOidPath_succ, hmiss] at h
  refine ⟨hhead, ?_, ?_⟩
  · intro hb
    simp only [getOidPathBody, List.nil_append, hb, Option.some.injEq,
      Prod.mk.injEq] at h
    exact h.1.symm
  · intro a rest hp
    rcases hb : bestBackReference e o ([] ++ [o]) with _ | bref
    · simp only [getOidPathBody, hb, Option.some.injEq, Prod.mk.injEq] at h
      rw [hp] at h
      simp at h
    · simp only [getOidPathBody, hb] at h
      rcases hr : getOidPath e f bref ([] ++ [o]) c with _ | pr
      · rw [hr] at h
        simp at h
      · obtain ⟨rest2, c₁⟩ := pr
        rw [hr] at h
        simp only [Option.some.injEq, Prod.mk.injEq] at h
        have hbref : bref ∉ ([] ++ [o] : List Oid) :=
          (bestBackReference_spec hb).2.1
        have hhead2 : rest2.head? = some bref :=
          ((getOidPath_shape e f).1 bref ([] ++ [o]) c rest2 c₁ hsc
            hbref hr).1
        have hpe : o :: rest2 = p := h.1
        rw [hp] at hpe
        have hae : a = bref := by
          have h2 : rest2 = a :: rest := (List.cons.injEq .. ▸ hpe).2
          rw [h2] at hhead2
          simpa using hhead2
        subst hae
        obtain ⟨hmem, hnf, hmin⟩ := bestBackReference_spec hb
        simp only [List.nil_append] at hmem hnf hmin
        exact ⟨hmem, hnf, hmin⟩

/-- Witness for the amended C4 at the first query of a fresh session in
`envFour`. -/
theorem claim4_best_scored_first_amended_witness :
    ([1, 5, 2, 3] : List Oid).head? = some 1 ∧
    (bestBackReference envFour 1 [1] = none → [1, 5, 2, 3] = [1]) ∧
    (∀ a rest, ([1, 5, 2, 3] : List Oid) = 1 :: a :: rest →
      a ∈ envFour.backRefs 1 ∧ a ∉ ([1] : List Oid) ∧
      ∀ b ∈ envFour.backRefs 1, b ∉ ([1] : List Oid) →
        refScore envFour 3 a 1 ≤ refScore envFour 3 b 1) :=
  claim4_best_scored_first_amended envFour 10 1 [] [1, 5, 2, 3] cacheFour
    suffixClosed_nil rfl (by set_option maxRecDepth 4000 in decide)

/-- C9.  Suffix-cache consistency: when a top-level `get_oid_path` call on
a suffix-closed session cache returns `o :: a :: rest`, every suffix of
that path is memoized under its first OID, no pre-existing cache entry is
overwritten (first writer wins), and a subsequent `get_oid_path(a)` whose
preceding path is disjoint from `a :: rest` answers `a :: rest` as a cache
hit, leaving the cache unchanged. -/
theorem claim9_suffix_cache_consistency (e : Env) (f g : Nat) (c : PathCache)
    (o a : Oid) (rest : List Oid) (c' : PathCache) (pre2 : List Oid)
    (hsc : SuffixClosed c)
    (h : getOidPath e f o [] c = some (o :: a :: rest, c')) :
    (∀ x tl, List.IsSuffix (x :: tl) (o :: a :: rest) →
      cacheFind c' x = some (x :: tl)) ∧
    (∀ k q, cacheFind c k = some q → cacheFind c' k = some q) ∧
    ((∀ y ∈ pre2, y ∉ a :: rest) →
      getOidPath e (g + 1) a pre2 c' = some (a :: rest, c')) := by
  obtain ⟨-, -, -, -, h5, h6, -⟩ :=
    (getOidPath_cacheConcl e f).1 o [] c (o :: a :: rest) c' hsc
      (by simp) (by simp) h
  refine ⟨h5, h6, ?_⟩
  intro hdisj
  have hfa : cacheFind c' a = some (a :: rest) :=
    h5 a rest ⟨[o], rfl⟩
  have hall : ((a :: rest).all fun x => decide (x ∉ pre2)) = true := by
    rw [List.all_eq_true]
    intro x hx
    rw [decide_eq_true_eq]
    intro hxp
    exact hdisj x hxp hx
  rw [getOidPath_succ, hfa]
  simp [hall]
  intro hcontra
  exfalso
  rw [List.all_eq_true] at hall
  have ha : a ∉ pre2 := by
    have := hall a (List.mem_cons_self ..)
    rwa [decide_eq_true_eq] at this
  obtain ⟨x, hx, hxp⟩ := hcontra ha
  have hxn := hall x (List.mem_cons_of_mem _ hx)
  rw [decide_eq_true_eq] at hxn
  exact hxn hxp

/-- Witness for C9 after the first query of a fresh session in `envFour`. -/
theorem claim9_suffix_cache_consistency_witness :
    (∀ x tl, List.IsSuffix (x :: tl) ([1, 5, 2, 3] : List Oid) →
      cacheFind cacheFour x = some (x :: tl)) ∧
    (∀ k q, cacheFind ([] : PathCache) k = some q →
      cacheFind cacheFour k = some q) ∧
    ((∀ y ∈ ([] : List Oid), y ∉ ([5, 2, 3] : List Oid)) →
      getOidPath envFour 6 5 [] cacheFour = some ([5, 2, 3], cacheFour)) :=
  claim9_suffix_cache_consistency envFour 10 5 [] 1 5 [2, 3] cacheFour []
    suffixClosed_nil (by set_option maxRecDepth 4000 in decide)

/-- Store whose root loads with one reference to an unreadable object. -/
def storeFail : Store := ⟨0, fun o => if o = 0 then some [1] else none⟩

/-- C6 (code behaviour at the failing input).  When the from-scratch walk
fails on OID `1`, `build_reference_maps` does surface the store-read
error, but the partially built maps stay in the session fields: all three
map-dependent accessors answer with the partial data instead of raising
the not-built error, and a retry is refused with the already-built error.
This contradicts the claimed abort atomicity. -/
theorem claim6_build_abort_exposes_partial_state :
    (buildReferenceMaps storeFail 5 none {}).2 =
      some (.walkFail (.storeRead 1)) ∧
    refMapAcc (buildReferenceMaps storeFail 5 none {}).1 = .ok [(0, [1])] ∧
    backMapAcc (buildReferenceMaps storeFail 5 none {}).1 = .ok [(1, [0])] ∧
    oidsAcc (buildReferenceMaps storeFail 5 none {}).1 = .ok {0, 1} ∧
    (buildReferenceMaps storeFail 5 none
      (buildReferenceMaps storeFail 5 none {}).1).2 = some .alreadyBuilt := by
  refine ⟨?_, ?_, ?_, ?_, ?_⟩ <;> decide

/-- Store whose root object loads cleanly and has no references at all. -/
def storeLeaf : Store := ⟨0, fun o => if o = 0 then some [] else none⟩

/-- C7 (code behaviour at the failing input).  On a store whose root has
no references, the from-scratch walk itself completes with empty forward
and backward maps and OID set `{root}`, but `build_reference_maps` then
raises the not-built `RuntimeError` from inside `_store_reference_cache`,
whose `reference_map` property access treats the empty built map as
unbuilt; the walked state stays assigned in place, so afterwards `oids`
answers `{root}` while `reference_map` and `back_reference_map` still
raise, and `get_oid_path(root)` raises instead of returning `(root,)`. -/
theorem claim7_empty_store_behavior :
    (walk storeLeaf 5 [storeLeaf.root] ⟨∅, [], []⟩).2 = none ∧
    (walk storeLeaf 5 [storeLeaf.root] ⟨∅, [], []⟩).1.refMap = [] ∧
    (walk storeLeaf 5 [storeLeaf.root] ⟨∅, [], []⟩).1.backMap = [] ∧
    (walk storeLeaf 5 [storeLeaf.root] ⟨∅, [], []⟩).1.oids = {0} ∧
    (buildReferenceMaps storeLeaf 5 none {}).2 = some .notBuilt ∧
    (buildReferenceMaps storeLeaf 5 none {}).1.oidsF = some {0} ∧
    (buildReferenceMaps storeLeaf 5 none {}).1.refMapF = some [] ∧
    (buildReferenceMaps storeLeaf 5 none {}).1.backMapF = some [] ∧
    oidsAcc (buildReferenceMaps storeLeaf 5 none {}).1 = .ok {0} ∧
    refMapAcc (buildReferenceMaps storeLeaf 5 none {}).1 = .error () ∧
    backMapAcc (buildReferenceMaps storeLeaf 5 none {}).1 = .error () ∧
    getOidPathSess (buildReferenceMaps storeLeaf 5 none {}).1
      (fun _ => none) (fun _ _ => none) 5 0 [] = .error () := by
  refine ⟨?_, ?_, ?_, ?_, ?_, ?_, ?_, ?_, ?_, ?_, ?_, ?_⟩ <;> decide

/-- Counterexample to C8 as stated: on `storeLeaf` the scratch build ends
with OID set `{0}`, but the cache file holds no edge, so reloading it
rebuilds an empty OID set — the root is lost and the reloaded state is not
identical to the pre-store one. -/
theorem claim8_counterexample :
    (walk storeLeaf 3 [storeLeaf.root] ⟨∅, [], []⟩).2 = none ∧
    storeCache (walk storeLeaf 3 [storeLeaf.root] ⟨∅, [], []⟩).1.refMap = [] ∧
    (0 : Oid) ∈ (walk storeLeaf 3 [storeLeaf.root] ⟨∅, [], []⟩).1.oids ∧
    (0 : Oid) ∉ (loadCache (storeCache
      (walk storeLeaf 3 [storeLeaf.root] ⟨∅, [], []⟩).1.refMap)).2.2 := by
  refine ⟨?_, ?_, ?_, ?_⟩ <;> decide

/-- C8 (amended).  Cache round-trip after a successful scratch build:
writing the cache file and loading it reconstructs forward and backward
maps with exactly the original contents, and an OID set equal to the union
of the forward map's keys and all referenced targets; that reloaded OID
set equals the original one whenever the root has at least one outgoing
reference (for a reference-free root it omits the root, as in the
counterexample). -/
theorem claim8_cache_round_trip_amended (store : Store) (f : Nat)
    (st : WalkState)
    (h : walk store f [store.root] ⟨∅, [], []⟩ = (st, none)) :
    (∀ s x, x ∈ mget (loadCache (storeCache st.refMap)).1 s ↔
      x ∈ mget st.refMap s) ∧
    (∀ t x, x ∈ mget (loadCache (storeCache st.refMap)).2.1 t ↔
      x ∈ mget st.backMap t) ∧
    (∀ o, o ∈ (loadCache (storeCache st.refMap)).2.2 ↔
      (mget st.refMap o ≠ [] ∨ ∃ s, o ∈ mget st.refMap s)) ∧
    (mget st.refMap store.root ≠ [] →
      (loadCache (storeCache st.refMap)).2.2 = st.oids) := by
  have inv := walk_preserves_inv store f _ _ st h (walkInv_init store.root)
  have hline : ∀ s x, (s, x) ∈ storeCache st.refMap ↔ x ∈ mget st.refMap s :=
    mem_storeCache inv.keysNd
  have hfwd : ∀ s x, x ∈ mget (loadCache (storeCache st.refMap)).1 s ↔
      x ∈ mget st.refMap s := by
    intro s x
    show x ∈ mget ((storeCache st.refMap).foldl loadStep ([], [])).1 s ↔ _
    rw [(loadFold_spec _ [] [] s x).1, hline]
    simp [mget]
  have hbwd : ∀ t x, x ∈ mget (loadCache (storeCache st.refMap)).2.1 t ↔
      x ∈ mget st.backMap t := by
    intro t x
    show x ∈ mget ((storeCache st.refMap).foldl loadStep ([], [])).2 t ↔ _
    rw [(loadFold_spec _ [] [] t x).2, hline]
    simp [mget]
    exact inv.trans x t
  have hoids : ∀ o, o ∈ (loadCache (storeCache st.refMap)).2.2 ↔
      (mget st.refMap o ≠ [] ∨ ∃ s, o ∈ mget st.refMap s) := by
    intro o
    show o ∈ (mkeys ((storeCache st.refMap).foldl loadStep ([], [])).1).toFinset ∪
        (mkeys ((storeCache st.refMap).foldl loadStep ([], [])).2).toFinset ↔ _
    rw [Finset.mem_union, List.mem_toFinset, List.mem_toFinset,
      (loadFold_keys _ [] [] o).1, (loadFold_keys _ [] [] o).2]
    simp only [mkeys_nil, List.not_mem_nil, false_or]
    constructor
    · rintro (⟨t, ht⟩ | ⟨s, hs⟩)
      · rw [hline] at ht
        exact Or.inl (List.ne_nil_of_mem ht)
      · rw [hline] at hs
        exact Or.inr ⟨s, hs⟩
    · rintro (hne | ⟨s, hs⟩)
      · rcases hm : mget st.refMap o with _ | ⟨t, ts⟩
        · exact absurd hm hne
        · exact Or.inl ⟨t, (hline o t).mpr (by rw [hm]; exact List.mem_cons_self ..)⟩
      · exact Or.inr ⟨s, (hline s o).mpr hs⟩
  refine ⟨hfwd, hbwd, hoids, ?_⟩
  intro hroot
  apply Finset.ext
  intro o
  rw [hoids o]
  constructor
  · rintro (hne | ⟨s, hs⟩)
    · exact inv.keysVis o (mem_mkeys_of_mget_ne_nil hne)
    · rcases inv.targVis o s hs with hin | hin
      · exact hin
      · simp at hin
  · intro hin
    rcases inv.visOrig o hin with rfl | ⟨s, hs⟩
    · exact Or.inl hroot
    · exact Or.inr ⟨s, hs⟩

/-- Witness for the amended C8 on a two-object store whose root has a
reference: the reloaded OID set is identical to the scratch-built one. -/
theorem claim8_cache_round_trip_amended_witness :
    (loadCache (storeCache
      (walk storeTwo 3 [storeTwo.root] ⟨∅, [], []⟩).1.refMap)).2.2 =
      (walk storeTwo 3 [storeTwo.root] ⟨∅, [], []⟩).1.oids :=
  (claim8_cache_round_trip_amended storeTwo 3
    (walk storeTwo 3 [storeTwo.root] ⟨∅, [], []⟩).1 rfl).2.2.2 (by decide)

/-- Inspector world for C10: three mutually referencing objects
`1 ↔ 2 ↔ 3` (so path scoring uses only the bidirectional rule and never
loads an object); object `1` is readable with an identifier and a physical
path, object `2` is unreadable, object `3` is readable. -/
def wTen : World :=
  { env :=
      { refMap := [(1, [2]), (2, [1, 3]), (3, [2])]
        backMap := [(1, [2]), (2, [1, 3]), (3, [2])]
        getId := fun _ => none
        getAttrName := fun _ _ => none }
    root := 99
    loadObj := fun o =>
      if o = 1 then some ⟨some "obj1", some "one", some ["a"], fun _ => none⟩
      else if o = 3 then some ⟨some "obj3", none, none, fun _ => none⟩
      else none }

/-- Counterexample to C10 as stated: querying OID `1` in `wTen` yields a
record whose `id_path`, `id` and `path` fields are all absent, although
only the `id_path` computation hit the unreadable object `2` — the `id`
and physical-path lookups for OID `1` succeed on their own.  The failure
of one field therefore does not degrade only that field. -/
theorem claim10_counterexample :
    getOidInfoW wTen 10 [] 1 =
      some { oid := 1, obj := some "obj1", oidPath := some [1, 2, 3] } ∧
    getIdW wTen 1 = .ok (some "one") ∧
    getPhysicalPathW wTen 1 = some ["a"] := by
  refine ⟨?_, ?_, ?_⟩ <;> · set_option maxRecDepth 4000 in decide

/-- C10 (amended).  Per-field degradation of `get_oid_info`: whenever the
path resolution completes (which needs no object loads beyond the maps), a
record is always returned — even for an unreadable object, whose string
field degrades to the `'<error>'` marker — and the string-form and
physical-path fields degrade individually; but the remaining fields are
computed in the fixed order `id_path`, `id`, `path` inside one
`except POSKeyError` handler, so the first store-read failure leaves that
field and every later field absent, even when a later field's own
computation would succeed. -/
theorem claim10_per_field_degradation_amended (w : World) (fuel : Nat)
    (cache : PathCache) (oid : Oid) (p : List Oid) (c' : PathCache)
    (hp : getOidPath w.env fuel oid [] cache = some (p, c')) :
    ∃ info, getOidInfoW w fuel cache oid = some info ∧
      info.oid = oid ∧
      info.obj = some ((getObjAsStrW w oid).take 50) ∧
      info.oidPath = some p ∧
      (getIdPathW w p = .error () →
        info.idPath = none ∧ info.id = none ∧ info.path = none) ∧
      (∀ l, getIdPathW w p = .ok l →
        info.idPath = some l ∧
        (getIdW w oid = .error () → info.id = none ∧ info.path = none) ∧
        (∀ v, getIdW w oid = .ok v →
          info.id = v ∧ info.path = getPhysicalPathW w oid)) := by
  unfold getOidInfoW
  rw [hp]
  rcases hip : getIdPathW w p with u | l
  · obtain rfl : u = () := rfl
    simp only [hip]
    refine ⟨_, rfl, rfl, rfl, rfl, fun _ => ⟨rfl, rfl, rfl⟩, ?_⟩
    intro l hl
    exact absurd hl (by simp)
  · rcases hid : getIdW w oid with u | v
    · obtain rfl : u = () := rfl
      simp only [hip, hid]
      refine ⟨_, rfl, rfl, rfl, rfl, ?_, ?_⟩
      · intro hcontra
        exact absurd hcontra (by simp)
      · intro l2 hl2
        obtain rfl : l = l2 := by simpa using hl2
        refine ⟨rfl, fun _ => ⟨rfl, rfl⟩, ?_⟩
        intro v hv
        exact absurd hv (by simp)
    · simp only [hip, hid]
      refine ⟨_, rfl, rfl, rfl, rfl, ?_, ?_⟩
      · intro hcontra
        exact absurd hcontra (by simp)
      · intro l2 hl2
        obtain rfl : l = l2 := by simpa using hl2
        refine ⟨rfl, ?_, ?_⟩
        · intro hcontra
          exact absurd hcontra (by simp)
        · intro v2 hv2
          obtain rfl : v = v2 := by simpa using hv2
          exact ⟨rfl, rfl⟩

/-- Witness for the amended C10 at the concrete world `wTen`. -/
theorem claim10_per_field_degradation_amended_witness :
    ∃ info, getOidInfoW wTen 10 [] 1 = some info ∧
      info.oid = 1 ∧
      info.obj = some ((getObjAsStrW wTen 1).take 50) ∧
      info.oidPath = some [1, 2, 3] ∧
      (getIdPathW wTen [1, 2, 3] = .error () →
        info.idPath = none ∧ info.id = none ∧ info.path = none) ∧
      (∀ l, getIdPathW wTen [1, 2, 3] = .ok l →
        info.idPath = some l ∧
        (getIdW wTen 1 = .error () → info.id = none ∧ info.path = none) ∧
        (∀ v, getIdW wTen 1 = .ok v →
          info.id = v ∧ info.path = getPhysicalPathW wTen 1)) :=
  claim10_per_field_degradation_amended wTen 10 [] 1 [1, 2, 3]
    [(1, [1, 2, 3]), (2, [2, 3]), (3, [3])]
    (by set_option maxRecDepth 4000 in decide)
